import Mathlib

/-!
# Verification of `sorted` (Go): array-backed sorted map and sorted set

Shallow embedding of `src/map.go` and `src/set.go`.

* Go slices are modelled as `List`s; `int` indices as `Nat` (an index never
  exceeds a slice length, so no machine-integer overflow can occur; the only
  sum, `i + j` in the binary search, is computed by Go through `uint`).
* The type constraint `cmp.Ordered` is modelled as `LinearOrder` (integers and
  strings). Floating-point keys are outside the model: with NaN, the operators
  `<` and `==` no longer agree with the order `cmp.Less` that the search uses.
* A run-time panic (index or slice bound out of range) is `none`.
* The iterators `Items()` are run on a consumer, a state transformer that says
  whether to go on; a value handle `*V` is the slot index with the value in it.
* Package `encoding/json` is a parameter of the encoders and of the decoder:
  `json.Marshal` on a key, a value or an element, and `json.Unmarshal` into the
  slice of a set. Its instances for `int` and `string` are embedded from the Go
  sources: the encoders with the escaping of strings, and the decoder into a
  slice of `int` with its scanner, its validity check and its element-wise
  store into the live slice. A returned pair `([]byte, error)` is a pair of
  options.
* The standard-library functions used by the package (`slices.BinarySearch`,
  `slices.Delete`, `slices.Sort` (here `SortSlice`), `slices.Compact`, the
  builtins `append` and `copy`) are embedded in the namespace `sorted.slices`.
-/

namespace sorted

/-! ## Go builtins and package `slices` -/

namespace slices

variable {E : Type}

/-- Builtin `append(s, v)` for a single element. -/
def append (s : List E) (v : E) : List E := s ++ [v]

/-- Indexed store `s[i] = v`; panics when `i` is out of range. -/
def setAt (s : List E) (i : Nat) (v : E) : Option (List E) :=
  if i < s.length then some (s.set i v) else none

/-- Builtin `copy(s[d:], s[f:])` on two windows of one slice, as the list `s` becomes.
Both slice expressions panic when their low bound exceeds `len(s)`.
`copy` moves `min(len(dst), len(src))` elements and behaves as `memmove`
(the source window is read before it is overwritten). -/
def copyWithin (s : List E) (d f : Nat) : Option (List E) :=
  if d ≤ s.length ∧ f ≤ s.length then
    let n := min (s.length - d) (s.length - f)
    some (s.take d ++ (s.drop f).take n ++ s.drop (d + n))
  else none

/-- Go `slices.Delete(s, i, j)`: removes `s[i:j]`; panics unless `i ≤ j ≤ len(s)`. -/
def Delete (s : List E) (i j : Nat) : Option (List E) :=
  if i ≤ j ∧ j ≤ s.length then some (s.take i ++ s.drop j) else none

/-- The loop of `slices.BinarySearch`:
`for i < j { h := int(uint(i+j) >> 1); if cmp.Less(x[h], target) { i = h + 1 } else { j = h } }`.
The first argument bounds the number of iterations; `j - i` shrinks at every
iteration, so `len(x)` iterations are enough (`searchLoop_fuel`). The bound
`j ≤ len(x)` is carried along, which keeps the access `x[h]` in range. -/
def searchLoop [LinearOrder E] (x : List E) (target : E) :
    Nat → (i j : Nat) → j ≤ x.length → Nat
  | 0, i, _, _ => i
  | fuel + 1, i, j, hj =>
    if hij : i < j then
      if x[(i + j) / 2] < target then
        searchLoop x target fuel ((i + j) / 2 + 1) j hj
      else
        searchLoop x target fuel i ((i + j) / 2) (by omega)
    else i

/-- Go `slices.BinarySearch(x, target)`: the loop from `i, j := 0, n`, then
`return i, i < n && (x[i] == target || (isNaN(x[i]) && isNaN(target)))`.
On a linear order `cmp.Less` is `<` and the NaN disjunct is false. -/
def BinarySearch [LinearOrder E] (x : List E) (target : E) : Nat × Bool :=
  let i := searchLoop x target x.length 0 x.length (Nat.le_refl _)
  (i, if h : i < x.length then decide (x[i] = target) else false)

/-- Go `slices.Sort(x)`: sorts ascending. The library's pattern-defeating
quicksort is not part of this package; on a linear order the ascending
rearrangement of a list is unique (`SortSlice_unique`), so insertion sort denotes
the same function. -/
def SortSlice [LinearOrder E] (x : List E) : List E :=
  x.insertionSort (fun a b => a ≤ b)

/-- The scan of `slices.Compact`: an element is kept exactly when it differs
from the element just before it (`prev`) in the input. -/
def compactFrom [DecidableEq E] (prev : E) : List E → List E
  | [] => []
  | b :: rest => if b = prev then compactFrom b rest else b :: compactFrom b rest

/-- Go `slices.Compact(s)`: replaces each run of consecutive equal elements by
a single copy. -/
def Compact [DecidableEq E] : List E → List E
  | [] => []
  | a :: rest => a :: compactFrom a rest

end slices

/-! ## `map.go` -/

/-- The struct `Map[K, V]`: keys and values in separate slices. -/
structure Map (K V : Type) where
  keys : List K
  vals : List V
deriving DecidableEq, Repr

/-- Go `NewMap()`: a new, empty sorted map. -/
def NewMap {K V : Type} : Map K V := { keys := [], vals := [] }

namespace Map

variable {K V : Type}

/-- Go `Map.keySearch`. -/
def keySearch [LinearOrder K] (m : Map K V) (key : K) : Nat × Bool :=
  slices.BinarySearch m.keys key

/-- Go `Map.Contains`. -/
def Contains [LinearOrder K] (m : Map K V) (key : K) : Bool :=
  (m.keySearch key).2

/-- Go `Map.Get`: the value and `true` when found, the zero value (`default`)
and `false` otherwise. The read `m.vals[idx]` panics when out of range. -/
def Get [LinearOrder K] [Inhabited V] (m : Map K V) (key : K) : Option (V × Bool) :=
  match m.keySearch key with
  | (idx, true) => (m.vals[idx]?).map (fun v => (v, true))
  | (_, false) => some (default, false)

/-- Go `Map.Put`: the map after the call and the returned flag. -/
def Put [LinearOrder K] (m : Map K V) (key : K) (value : V) : Option (Map K V × Bool) :=
  match m.keySearch key with
  | (idx, true) => do
    let vals ← slices.setAt m.vals idx value
    pure ({ m with vals := vals }, false)
  | (idx, false) => do
    let keys := slices.append m.keys key
    let keys ← slices.copyWithin keys (idx + 1) idx
    let keys ← slices.setAt keys idx key
    let vals := slices.append m.vals value
    let vals ← slices.copyWithin vals (idx + 1) idx
    let vals ← slices.setAt vals idx value
    pure ({ keys := keys, vals := vals }, true)

/-- Go `Map.Keys`. -/
def Keys (m : Map K V) : List K := m.keys

/-- Go `Map.Vals`. -/
def Vals (m : Map K V) : List V := m.vals

/-- Go `Map.Len`. -/
def Len (m : Map K V) : Nat := m.keys.length

/-- Go `Map.Del`: the map after the call and the returned flag. -/
def Del [LinearOrder K] (m : Map K V) (key : K) : Option (Map K V × Bool) :=
  match slices.BinarySearch m.keys key with
  | (_, false) => some (m, false)
  | (idx, true) => do
    let keys ← slices.Delete m.keys idx (idx + 1)
    let vals ← slices.Delete m.vals idx (idx + 1)
    pure ({ keys := keys, vals := vals }, true)

end Map

/-! ### Iteration and encoding of a map -/

/-- Byte slices that hold JSON text, as lists of characters. -/
abbrev Bytes := List Char

/-- A value handle `&m.vals[idx]`, as a consumer of `Items()` receives it: the
slot it points to and the value that slot holds when it is yielded. -/
structure ValRef (V : Type) where
  idx : Nat
  val : V
deriving DecidableEq, Repr

namespace Map

variable {K V : Type}

/-- The loop of `Map.Items`, `for idx, k := range m.keys { if !yield(k, &m.vals[idx]) { return } }`,
from index `idx` on. The consumer `yield` is a state transformer that says
whether to go on; it may itself panic. Taking `&m.vals[idx]` panics when `idx`
is out of range. -/
def itemsFrom {σ : Type} (vals : List V) (yield : σ → K → ValRef V → Option (σ × Bool)) :
    List K → Nat → σ → Option σ
  | [], _, st => some st
  | k :: ks, idx, st =>
    match vals[idx]? with
    | none => none
    | some v =>
      match yield st k ⟨idx, v⟩ with
      | none => none
      | some (st1, true) => itemsFrom vals yield ks (idx + 1) st1
      | some (st1, false) => some st1

/-- Go `Map.Items`: the push iterator over the key-value pairs, run on a consumer. -/
def Items {σ : Type} (m : Map K V) (yield : σ → K → ValRef V → Option (σ × Bool))
    (st : σ) : Option σ :=
  itemsFrom m.vals yield m.keys 0 st

/-- The local variables of `Map.MarshalJSON` that its loop changes: the buffer,
the counter `i`, and the error of a `return nil, err` executed in the loop body. -/
structure MarshalLoop (ε : Type) where
  buf : Bytes
  i : Nat
  ret : Option ε
deriving DecidableEq, Repr

/-- The body of the loop of `Map.MarshalJSON`. The parameters `encK` and `encV`
are `json.Marshal` on a key and on a value. Writes to a `bytes.Buffer` never
return an error. The read `keyBytes[0]` panics on an empty text. -/
def marshalBody {ε : Type} (encK : K → Except ε Bytes) (encV : V → Except ε Bytes)
    (count : Nat) (st : MarshalLoop ε) (k : K) (v : ValRef V) :
    Option (MarshalLoop ε × Bool) :=
  match encK k with
  | .error err => some ({ st with ret := some err }, false)
  | .ok keyBytes =>
    match keyBytes[0]? with
    | none => none
    | some c =>
      let buf := if c ≠ '"' then st.buf ++ ['"'] else st.buf
      let buf := buf ++ keyBytes
      let buf := if c ≠ '"' then buf ++ ['"'] else buf
      let buf := buf ++ [':']
      match encV v.val with
      | .error err => some ({ st with ret := some err }, false)
      | .ok valBytes =>
        let buf := buf ++ valBytes
        let i := st.i + 1
        let buf := if i < count then buf ++ [','] else buf
        some ({ buf := buf, i := i, ret := none }, true)

/-- Go `Map.MarshalJSON`: the returned pair `([]byte, error)`, where `none` in
the first component is the nil slice. -/
def MarshalJSON {ε : Type} (encK : K → Except ε Bytes) (encV : V → Except ε Bytes)
    (m : Map K V) : Option (Option Bytes × Option ε) :=
  match m.Items (marshalBody encK encV m.Len) { buf := ['{'], i := 0, ret := none } with
  | none => none
  | some st =>
    match st.ret with
    | some err => some (none, some err)
    | none => some (some (st.buf ++ ['}']), none)

end Map

/-! ## `set.go` -/

/-- The struct `Set[T]`. Go tells a nil slice from an empty one and
`encoding/json` encodes the two differently, so the slice `vals` is its
elements together with `isNil`, which says whether it is the nil slice. -/
structure Set (T : Type) where
  vals : List T
  isNil : Bool := false
deriving DecidableEq, Repr

/-- Go `toSliceSet`: sort, then compact. -/
def toSliceSet {T : Type} [LinearOrder T] (s : List T) : List T :=
  slices.Compact (slices.SortSlice s)

/-- Go `NewSet(items...)`, called with the listed arguments. With no argument the
variadic parameter is the nil slice, which `slices.Sort` and `slices.Compact`
(`if len(s) < 2 { return s }`) hand back as it is. -/
def NewSet {T : Type} [LinearOrder T] (items : List T) : Set T :=
  { vals := toSliceSet items, isNil := items.isEmpty }

namespace Set

variable {T : Type}

/-- Go `Set.keySearch`. -/
def keySearch [LinearOrder T] (s : Set T) (key : T) : Nat × Bool :=
  slices.BinarySearch s.vals key

/-- Go `Set.Contains`. -/
def Contains [LinearOrder T] (s : Set T) (val : T) : Bool :=
  (s.keySearch val).2

/-- Go `Set.Put`: the set after the call and the returned flag. -/
def Put [LinearOrder T] (s : Set T) (val : T) : Option (Set T × Bool) :=
  match s.keySearch val with
  | (_, true) => some (s, false)
  | (idx, false) => do
    let vals := slices.append s.vals val
    let vals ← slices.copyWithin vals (idx + 1) idx
    let vals ← slices.setAt vals idx val
    pure ({ vals := vals }, true)

/-- Go `Set.Values`. -/
def Values (s : Set T) : List T := s.vals

/-- Go `Set.Len`. -/
def Len (s : Set T) : Nat := s.vals.length

/-- Go `Set.Del`: the set after the call and the returned flag. -/
def Del [LinearOrder T] (s : Set T) (val : T) : Option (Set T × Bool) :=
  match slices.BinarySearch s.vals val with
  | (_, false) => some (s, false)
  | (idx, true) => do
    let vals ← slices.Delete s.vals idx (idx + 1)
    pure ({ vals := vals }, true)

/-- The loop of `Set.Items`: `for _, val := range s.vals { if !yield(val) { return } }`. -/
def itemsLoop {σ : Type} (yield : σ → T → Option (σ × Bool)) : List T → σ → Option σ
  | [], st => some st
  | x :: xs, st =>
    match yield st x with
    | none => none
    | some (st1, true) => itemsLoop yield xs st1
    | some (st1, false) => some st1

/-- Go `Set.Items`: the push iterator over the values, run on a consumer. -/
def Items {σ : Type} (s : Set T) (yield : σ → T → Option (σ × Bool)) (st : σ) : Option σ :=
  itemsLoop yield s.vals st

end Set

/-! ### Package `encoding/json` on slices -/

/-- The texts of the elements of a slice, or the first error. -/
def jsonMarshalElems {T ε : Type} (enc : T → Except ε Bytes) : List T → Except ε (List Bytes)
  | [] => .ok []
  | x :: xs =>
    match enc x with
    | .error err => .error err
    | .ok t =>
      match jsonMarshalElems enc xs with
      | .error err => .error err
      | .ok ts => .ok (t :: ts)

/-- Go `json.Marshal` on a slice, given `json.Marshal` on an element: a nil
slice encodes as `null`, any other slice as `[`, the element texts separated by
`,`, and `]`. -/
def jsonMarshalSlice {T ε : Type} (enc : T → Except ε Bytes) (isNil : Bool) (xs : List T) :
    Except ε Bytes :=
  if isNil then .ok ['n', 'u', 'l', 'l']
  else
    match jsonMarshalElems enc xs with
    | .error err => .error err
    | .ok ts => .ok (['['] ++ List.intercalate [','] ts ++ [']'])

namespace Set

variable {T : Type}

/-- Go `Set.MarshalJSON`, `return json.Marshal(s.vals)`: the returned pair
`([]byte, error)`. -/
def MarshalJSON {ε : Type} (enc : T → Except ε Bytes) (s : Set T) : Option Bytes × Option ε :=
  match jsonMarshalSlice enc s.isNil s.vals with
  | .ok b => (some b, none)
  | .error err => (none, some err)

/-- Go `Set.UnmarshalJSON`: the set after the call and the returned error. The
parameter `unmarshal` is `json.Unmarshal(b, &s.vals)`: it gives the slice `s.vals`
as the decoder leaves it, and the error. -/
def UnmarshalJSON {ε : Type} [LinearOrder T] (unmarshal : Bytes → Set T → Set T × Option ε)
    (s : Set T) (b : Bytes) : Set T × Option ε :=
  match unmarshal b s with
  | (s1, some err) => (s1, some err)
  | (s1, none) => ({ vals := toSliceSet s1.vals, isNil := s1.isNil }, none)

end Set

/-! ### Package `encoding/json` on integers and strings

The instances of `json.Marshal` and `json.Unmarshal` for the element types
`int` and `string`, after the Go sources `encoding/json/encode.go`, `scanner.go`
and `decode.go`. A JSON text is a list of bytes, each byte a character below
256; a Go `string` is its list of bytes. -/

/-- The errors of `encoding/json`: a text that is not JSON (`SyntaxError`), a JSON
value that does not fit the Go target (`UnmarshalTypeError`), a Go value without
a JSON form (`UnsupportedValueError`). -/
inductive JsonError where
  | invalidText
  | typeMismatch
  | unsupportedValue
deriving DecidableEq, Repr

/-- Go `json.Marshal` on an `int`: the decimal digits. -/
def jsonInt {ε : Type} (n : Int) : Except ε Bytes := .ok (toString n).toList

/-- Whether the byte, if there is one, lies between `lo` and `hi`. -/
def byteIn (c : Option Char) (lo hi : Nat) : Bool :=
  match c with
  | some c => decide (lo ≤ c.toNat ∧ c.toNat ≤ hi)
  | none => false

/-- Go `utf8.DecodeRune` on a first byte `b0 ≥ 0x80` followed by `cs`: the length
of the UTF-8 sequence that starts there, or `0` when the bytes are not a
well-formed sequence (Go then returns `RuneError` with size 1). -/
def utf8Size (b0 : Nat) (cs : List Char) : Nat :=
  if 0xC2 ≤ b0 ∧ b0 ≤ 0xDF then
    if byteIn cs[0]? 0x80 0xBF then 2 else 0
  else if b0 = 0xE0 then
    if byteIn cs[0]? 0xA0 0xBF && byteIn cs[1]? 0x80 0xBF then 3 else 0
  else if (0xE1 ≤ b0 ∧ b0 ≤ 0xEC) ∨ b0 = 0xEE ∨ b0 = 0xEF then
    if byteIn cs[0]? 0x80 0xBF && byteIn cs[1]? 0x80 0xBF then 3 else 0
  else if b0 = 0xED then
    if byteIn cs[0]? 0x80 0x9F && byteIn cs[1]? 0x80 0xBF then 3 else 0
  else if b0 = 0xF0 then
    if byteIn cs[0]? 0x90 0xBF && byteIn cs[1]? 0x80 0xBF && byteIn cs[2]? 0x80 0xBF then 4
    else 0
  else if 0xF1 ≤ b0 ∧ b0 ≤ 0xF3 then
    if byteIn cs[0]? 0x80 0xBF && byteIn cs[1]? 0x80 0xBF && byteIn cs[2]? 0x80 0xBF then 4
    else 0
  else if b0 = 0xF4 then
    if byteIn cs[0]? 0x80 0x8F && byteIn cs[1]? 0x80 0xBF && byteIn cs[2]? 0x80 0xBF then 4
    else 0
  else 0

/-- What the string encoder does with the next byte: look at it, copy `k` more
bytes of a sequence already checked, or pass over `k` bytes already written. -/
inductive EncMode where
  | scan
  | copy (k : Nat)
  | pass (k : Nat)
deriving DecidableEq, Repr

/-- The text of one byte below `0x80` in a JSON string (Go `appendString` with
`escapeHTML`): printable bytes are copied, except the quote and the backslash,
which get a backslash, and `<`, `>`, `&`, which like the control bytes are
written `\u00XX`; backspace, form feed, newline, return and tab have their
short forms (for backspace and form feed since Go 1.22; earlier versions write
`\u0008` and `\u000c`). -/
def jsonAsciiByte (c : Char) : List Char :=
  if c = '"' ∨ c = '\\' then ['\\', c]
  else if c.toNat = 8 then ['\\', 'b']
  else if c.toNat = 12 then ['\\', 'f']
  else if c.toNat = 10 then ['\\', 'n']
  else if c.toNat = 13 then ['\\', 'r']
  else if c.toNat = 9 then ['\\', 't']
  else if c.toNat < 32 ∨ c = '<' ∨ c = '>' ∨ c = '&' then
    ['\\', 'u', '0', '0', Nat.digitChar (c.toNat / 16), Nat.digitChar (c.toNat % 16)]
  else [c]

/-- The loop of Go `appendString` over the bytes of a string: a byte that does
not start a well-formed UTF-8 sequence is written as the escape of the
replacement character `U+FFFD`, the line and paragraph separators `U+2028` and
`U+2029` are written as their escapes, any other sequence is copied. -/
def jsonStringBody : EncMode → List Char → List Char
  | _, [] => []
  | .copy (k + 1), c :: cs => c :: jsonStringBody (if k = 0 then .scan else .copy k) cs
  | .pass (k + 1), _ :: cs => jsonStringBody (if k = 0 then .scan else .pass k) cs
  | _, c :: cs =>
    if c.toNat < 0x80 then jsonAsciiByte c ++ jsonStringBody .scan cs
    else if utf8Size c.toNat cs = 0 then
      ['\\', 'u', 'f', 'f', 'f', 'd'] ++ jsonStringBody .scan cs
    else if c.toNat = 0xE2 ∧ byteIn cs[0]? 0x80 0x80 ∧ byteIn cs[1]? 0xA8 0xA9 then
      ['\\', 'u', '2', '0', '2', if byteIn cs[1]? 0xA8 0xA8 then '8' else '9']
        ++ jsonStringBody (.pass 2) cs
    else c :: jsonStringBody (.copy (utf8Size c.toNat cs - 1)) cs

/-- Go `json.Marshal` on a `string` given by its bytes. -/
def jsonString {ε : Type} (t : List Char) : Except ε Bytes :=
  .ok ('"' :: jsonStringBody .scan t ++ ['"'])

/-- The bytes of the UTF-8 encoding of a character. -/
def utf8Bytes (c : Char) : List Char :=
  let n := c.toNat
  if n < 0x80 then [c]
  else if n < 0x800 then [Char.ofNat (0xC0 + n / 64), Char.ofNat (0x80 + n % 64)]
  else if n < 0x10000 then
    [Char.ofNat (0xE0 + n / 4096), Char.ofNat (0x80 + n / 64 % 64), Char.ofNat (0x80 + n % 64)]
  else
    [Char.ofNat (0xF0 + n / 262144), Char.ofNat (0x80 + n / 4096 % 64),
      Char.ofNat (0x80 + n / 64 % 64), Char.ofNat (0x80 + n % 64)]

/-- Go `json.Marshal` on the `string` whose characters are `t`. -/
def jsonText {ε : Type} (t : String) : Except ε Bytes :=
  jsonString (t.toList.flatMap utf8Bytes)

/-- The tokens of a JSON text. A number carries its text, a string the bytes
between its quotes. -/
inductive JsonTok where
  | beginArray
  | endArray
  | beginObject
  | endObject
  | comma
  | colon
  | null
  | bool
  | number (text : List Char)
  | string (body : List Char)
deriving DecidableEq, Repr

/-- Positions of the scanner inside a token: between tokens, inside a literal
name with `rest` still to come, inside a number (after the minus sign, after a
leading zero, in the integer digits, after the point, in the fraction, after
`e`, after the sign of the exponent, in the exponent), inside a string (plain,
after a backslash, in the `k` hexadecimal digits still owed to `\u`). -/
inductive LexState where
  | start
  | lit (rest : List Char) (tok : JsonTok)
  | minus (acc : List Char)
  | zero (acc : List Char)
  | int (acc : List Char)
  | dot (acc : List Char)
  | frac (acc : List Char)
  | exp (acc : List Char)
  | expSign (acc : List Char)
  | expDigits (acc : List Char)
  | str (acc : List Char)
  | esc (acc : List Char)
  | hex (acc : List Char) (k : Nat)
deriving DecidableEq, Repr

/-- The scanner on a byte that may begin a token: white space is skipped, a
punctuation byte is a token, and a quote, a minus sign, a digit or one of `t`,
`f`, `n` opens a longer token; any other byte is an error. -/
def startStep (c : Char) : Option (LexState × List JsonTok) :=
  if c = ' ' ∨ c = '\t' ∨ c = '\r' ∨ c = '\n' then some (.start, [])
  else if c = '[' then some (.start, [.beginArray])
  else if c = ']' then some (.start, [.endArray])
  else if c = '{' then some (.start, [.beginObject])
  else if c = '}' then some (.start, [.endObject])
  else if c = ',' then some (.start, [.comma])
  else if c = ':' then some (.start, [.colon])
  else if c = '"' then some (.str [], [])
  else if c = '-' then some (.minus [c], [])
  else if c = '0' then some (.zero [c], [])
  else if c.isDigit then some (.int [c], [])
  else if c = 't' then some (.lit ['r', 'u', 'e'] .bool, [])
  else if c = 'f' then some (.lit ['a', 'l', 's', 'e'] .bool, [])
  else if c = 'n' then some (.lit ['u', 'l', 'l'] .null, [])
  else none

/-- Whether the byte is a hexadecimal digit. -/
def isHexDigit (c : Char) : Bool :=
  c.isDigit || decide (('a' ≤ c ∧ c ≤ 'f') ∨ ('A' ≤ c ∧ c ≤ 'F'))

/-- The tokens of a text, after the state functions of Go's `scanner.go`; `none`
when the text has a byte no token allows. A number ends at the first byte that
cannot continue it, and that byte is then read as the start of the next token. -/
def lex : LexState → List Char → Option (List JsonTok)
  | st, [] =>
    match st with
    | .start => some []
    | .zero acc => some [.number acc]
    | .int acc => some [.number acc]
    | .frac acc => some [.number acc]
    | .expDigits acc => some [.number acc]
    | _ => none
  | st, c :: cs =>
    match st with
    | .start =>
      match startStep c with
      | none => none
      | some (st1, toks) => (lex st1 cs).map (fun r => toks ++ r)
    | .lit [] _ => none
    | .lit (r :: rs) tok =>
      if c = r then
        match rs with
        | [] => (lex .start cs).map (fun ts => tok :: ts)
        | _ :: _ => lex (.lit rs tok) cs
      else none
    | .minus acc =>
      if c = '0' then lex (.zero (acc ++ [c])) cs
      else if c.isDigit then lex (.int (acc ++ [c])) cs
      else none
    | .zero acc =>
      if c = '.' then lex (.dot (acc ++ [c])) cs
      else if c = 'e' ∨ c = 'E' then lex (.exp (acc ++ [c])) cs
      else
        match startStep c with
        | none => none
        | some (st1, toks) => (lex st1 cs).map (fun r => .number acc :: toks ++ r)
    | .int acc =>
      if c.isDigit then lex (.int (acc ++ [c])) cs
      else if c = '.' then lex (.dot (acc ++ [c])) cs
      else if c = 'e' ∨ c = 'E' then lex (.exp (acc ++ [c])) cs
      else
        match startStep c with
        | none => none
        | some (st1, toks) => (lex st1 cs).map (fun r => .number acc :: toks ++ r)
    | .dot acc => if c.isDigit then lex (.frac (acc ++ [c])) cs else none
    | .frac acc =>
      if c.isDigit then lex (.frac (acc ++ [c])) cs
      else if c = 'e' ∨ c = 'E' then lex (.exp (acc ++ [c])) cs
      else
        match startStep c with
        | none => none
        | some (st1, toks) => (lex st1 cs).map (fun r => .number acc :: toks ++ r)
    | .exp acc =>
      if c = '+' ∨ c = '-' then lex (.expSign (acc ++ [c])) cs
      else if c.isDigit then lex (.expDigits (acc ++ [c])) cs
      else none
    | .expSign acc => if c.isDigit then lex (.expDigits (acc ++ [c])) cs else none
    | .expDigits acc =>
      if c.isDigit then lex (.expDigits (acc ++ [c])) cs
      else
        match startStep c with
        | none => none
        | some (st1, toks) => (lex st1 cs).map (fun r => .number acc :: toks ++ r)
    | .str acc =>
      if c = '"' then (lex .start cs).map (fun ts => .string acc :: ts)
      else if c = '\\' then lex (.esc (acc ++ [c])) cs
      else if c.toNat < 32 then none
      else lex (.str (acc ++ [c])) cs
    | .esc acc =>
      if c = 'u' then lex (.hex (acc ++ [c]) 4) cs
      else if c = '"' ∨ c = '\\' ∨ c = '/' ∨ c = 'b' ∨ c = 'f' ∨ c = 'n' ∨ c = 'r' ∨ c = 't' then
        lex (.str (acc ++ [c])) cs
      else none
    | .hex acc k =>
      if isHexDigit c then
        if k ≤ 1 then lex (.str (acc ++ [c])) cs else lex (.hex (acc ++ [c]) (k - 1)) cs
      else none

/-- What the grammar expects next: a value (or, right after `[`, the end of the
array), what follows a value, a key (or, right after `\x7b`, the end of the
object), the colon after a key. -/
inductive ParseState where
  | value (mayEnd : Bool)
  | afterValue
  | key (mayEnd : Bool)
  | colon
deriving DecidableEq, Repr

/-- Whether the tokens are one JSON value. The stack holds the open arrays
(`true`) and objects (`false`), innermost first. -/
def validTokens : List Bool → ParseState → List JsonTok → Bool
  | stack, st, [] => decide (stack = [] ∧ st = .afterValue)
  | stack, .value mayEnd, t :: ts =>
    match t with
    | .number _ => validTokens stack .afterValue ts
    | .string _ => validTokens stack .afterValue ts
    | .null => validTokens stack .afterValue ts
    | .bool => validTokens stack .afterValue ts
    | .beginArray => validTokens (true :: stack) (.value true) ts
    | .beginObject => validTokens (false :: stack) (.key true) ts
    | .endArray =>
      match mayEnd, stack with
      | true, true :: rest => validTokens rest .afterValue ts
      | _, _ => false
    | _ => false
  | stack, .afterValue, t :: ts =>
    match stack, t with
    | true :: _, .comma => validTokens stack (.value false) ts
    | true :: rest, .endArray => validTokens rest .afterValue ts
    | false :: _, .comma => validTokens stack (.key false) ts
    | false :: rest, .endObject => validTokens rest .afterValue ts
    | _, _ => false
  | stack, .key mayEnd, t :: ts =>
    match t with
    | .string _ => validTokens stack .colon ts
    | .endObject =>
      match mayEnd, stack with
      | true, false :: rest => validTokens rest .afterValue ts
      | _, _ => false
    | _ => false
  | stack, .colon, t :: ts =>
    match t with
    | .colon => validTokens stack (.value false) ts
    | _ => false

/-- An element of a JSON array, as far as a decoder into a slice of integers or
strings tells them apart: a number, a string, `null`, or anything else (a
boolean, an array, an object). -/
inductive JsonElem where
  | number (text : List Char)
  | string (body : List Char)
  | null
  | other
deriving DecidableEq, Repr

/-- The elements of the outermost array, from the tokens after its opening
bracket; `depth` counts the arrays and objects open inside it. -/
def topElems : Nat → List JsonTok → List JsonElem
  | _, [] => []
  | 0, t :: ts =>
    match t with
    | .number text => .number text :: topElems 0 ts
    | .string body => .string body :: topElems 0 ts
    | .null => .null :: topElems 0 ts
    | .bool => .other :: topElems 0 ts
    | .beginArray => .other :: topElems 1 ts
    | .beginObject => .other :: topElems 1 ts
    | .comma => topElems 0 ts
    | _ => []
  | depth + 1, t :: ts =>
    match t with
    | .beginArray => topElems (depth + 2) ts
    | .beginObject => topElems (depth + 2) ts
    | .endArray => topElems depth ts
    | .endObject => topElems depth ts
    | _ => topElems (depth + 1) ts

/-- A JSON text as a decoder into a slice sees it: not JSON, the value `null`,
an array with its elements, or another value (a number, a string, a boolean,
an object). -/
inductive JsonDoc where
  | invalid
  | null
  | array (elems : List JsonElem)
  | other
deriving DecidableEq, Repr

/-- Go `checkValid` followed by the look at the first token of the value. -/
def jsonDoc (b : Bytes) : JsonDoc :=
  match lex .start b with
  | none => .invalid
  | some toks =>
    if validTokens [] (.value false) toks then
      match toks with
      | [.null] => .null
      | .beginArray :: ts => .array (topElems 0 ts)
      | _ => .other
    else .invalid

/-- What the decoder does with one element of the array for a slot of type `T`:
store a value, leave the slot alone without error (`null` into a number or a
string), or leave it alone and save a type error. -/
inductive Slot (T : Type) where
  | store (x : T)
  | keep
  | mismatch
deriving DecidableEq, Repr

/-- Whether the element raises a type error. -/
def Slot.isMismatch {T : Type} : Slot T → Bool
  | .mismatch => true
  | _ => false

/-- The slice after Go `decodeState.array` has decoded the elements into it, from
index `i`: an element is stored in its slot or the slot keeps what it held,
and decoding goes on either way. The list `backing` is the backing array of
the slice, its elements followed by what lies between its length and its
capacity; a slot beyond the capacity is new and holds `zero`. -/
def storeElems {T : Type} (slotOf : JsonElem → Slot T) (zero : T) (backing : List T) :
    Nat → List JsonElem → List T
  | _, [] => []
  | i, e :: es =>
    (match slotOf e with
      | .store x => x
      | _ => (backing[i]?).getD zero) :: storeElems slotOf zero backing (i + 1) es

/-- Go `json.Unmarshal(b, &s.vals)` into a slice whose element decoder is `slotOf`
and whose backing array holds `spare` between its length and its capacity. The
text is checked first and a text that is not JSON changes nothing. The value
`null` makes the slice nil. An array is decoded element by element into the
slice, which is cut or grown to the number of elements, and the earliest type
error is returned after the whole array has been decoded. Any other value is
a type error and changes nothing. -/
def jsonUnmarshalSlice {T : Type} (slotOf : JsonElem → Slot T) (zero : T) (spare : List T)
    (b : Bytes) (s : Set T) : Set T × Option JsonError :=
  match jsonDoc b with
  | .invalid => (s, some .invalidText)
  | .other => (s, some .typeMismatch)
  | .null => ({ vals := [], isNil := true }, none)
  | .array es =>
    ({ vals := storeElems slotOf zero (s.vals ++ spare) 0 es, isNil := false },
      if es.any (fun e => (slotOf e).isMismatch) then some .typeMismatch else none)

/-- The value of a decimal digit. -/
def digitVal (c : Char) : Nat := c.toNat - 48

/-- The number written by a non-empty list of decimal digits. -/
def natOfDigits (ds : List Char) : Option Nat :=
  if ds ≠ [] ∧ ds.all Char.isDigit then some (ds.foldl (fun n c => 10 * n + digitVal c) 0)
  else none

/-- Go `strconv.ParseInt(text, 10, 64)` on the text of a JSON number, before the
range check: an optional minus sign and decimal digits; a fraction or an
exponent is an error. -/
def parseIntLit (text : List Char) : Option Int :=
  match text with
  | '-' :: ds => (natOfDigits ds).map (fun n => -(n : Int))
  | ds => (natOfDigits ds).map (fun n => (n : Int))

/-- The element decoder for a slot of type `int` (64 bits): an integer literal
in range is stored, `null` leaves the slot alone, anything else is a type
error. -/
def intSlot : JsonElem → Slot Int
  | .number text =>
    match parseIntLit text with
    | some n => if -(2 : Int) ^ 63 ≤ n ∧ n < (2 : Int) ^ 63 then .store n else .mismatch
    | none => .mismatch
  | .null => .keep
  | _ => .mismatch

/-- Go `json.Unmarshal(b, &s.vals)` for a set of `int`. -/
def jsonUnmarshalInts (spare : List Int) (b : Bytes) (s : Set Int) : Set Int × Option JsonError :=
  jsonUnmarshalSlice intSlot 0 spare b s

/-! ## Specification vocabulary -/

/-- The ordering invariant as the specification words it:
`s[i] < s[i+1]` for every valid `i`. -/
def StrictAsc {E : Type} [LT E] (s : List E) : Prop :=
  ∀ i (h : i < s.length - 1), s.get ⟨i, by omega⟩ < s.get ⟨i + 1, by omega⟩

instance {E : Type} [LT E] [DecidableRel (fun a b : E => a < b)] (s : List E) :
    Decidable (StrictAsc s) := by
  unfold StrictAsc; infer_instance

/-- A well-formed map: keys strictly ascending, one value per key. -/
def Map.WellFormed {K V : Type} [LT K] (m : Map K V) : Prop :=
  StrictAsc m.keys ∧ m.keys.length = m.vals.length

instance {K V : Type} [LT K] [DecidableRel (fun a b : K => a < b)] (m : Map K V) :
    Decidable m.WellFormed := by
  unfold Map.WellFormed; infer_instance

/-- The contract of the search primitive, as the specification words it: the
result `(i, found)` on the sequence `s` and target `k` has `i ≤ len(s)`, `found`
exactly when `k` occurs in `s`, `s[i] = k` when found, every element before
index `i` below `k` and every element from index `i` on at least `k`. -/
def SearchContract {E : Type} [LinearOrder E] (s : List E) (k : E) (r : Nat × Bool) : Prop :=
  r.1 ≤ s.length
    ∧ (r.2 = true ↔ k ∈ s)
    ∧ (r.2 = true → s[r.1]? = some k)
    ∧ (∀ p a, s[p]? = some a → p < r.1 → a < k)
    ∧ (∀ p a, s[p]? = some a → r.1 ≤ p → k ≤ a)

/-- The consumer `for k, v := range m.Items() { out = append(out, (k, v)) }`,
which runs the iteration to completion and records what is yielded
(`map_test.go` lines 54 to 57). -/
def Map.collect {K V : Type} (out : List (K × ValRef V)) (k : K) (v : ValRef V) :
    Option (List (K × ValRef V) × Bool) :=
  some (out ++ [(k, v)], true)

/-- The consumer `for x := range s.Items() { res = append(res, x) }`
(`set_test.go` lines 30 to 32). -/
def Set.collect {T : Type} (out : List T) (x : T) : Option (List T × Bool) :=
  some (out ++ [x], true)

/-- The pairs of a key and a handle on its value slot, slot numbers from `idx` on. -/
def refsFrom {K V : Type} : List K → List V → Nat → List (K × ValRef V)
  | k :: ks, v :: vs, idx => (k, ⟨idx, v⟩) :: refsFrom ks vs (idx + 1)
  | _, _, _ => []

/-- One field of the object encoding, as the specification words it: the key text,
wrapped in double quotes when it does not already begin with one, then `:`,
then the value text. -/
def specField (kt vt : Bytes) : Bytes :=
  (if kt[0]? = some '"' then kt else ['"'] ++ kt ++ ['"']) ++ [':'] ++ vt

/-- The object encoding, as the specification words it: `{`, the fields separated
by a single `,` with no trailing comma, then `}`. -/
def specObject (fields : List Bytes) : Bytes :=
  ['{'] ++ List.intercalate [','] fields ++ ['}']

/-- One field per key, in the order of `Keys()`, from the key and value texts. -/
def specFields {K V : Type} (kt : K → Bytes) (vt : V → Bytes) (m : Map K V) : List Bytes :=
  List.zipWith (fun k v => specField (kt k) (vt v)) m.keys m.vals

/-- One mutating call on a map. -/
inductive MapOp (K V : Type) where
  | put (key : K) (value : V)
  | del (key : K)
deriving DecidableEq, Repr

/-- The map after one mutating call (`none` when the call panics). -/
def Map.step {K V : Type} [LinearOrder K] (m : Map K V) : MapOp K V → Option (Map K V)
  | .put key value => (m.Put key value).map Prod.fst
  | .del key => (m.Del key).map Prod.fst

/-- The map after a sequence of mutating calls, applied left to right. -/
def Map.run {K V : Type} [LinearOrder K] (m : Map K V) : List (MapOp K V) → Option (Map K V)
  | [] => some m
  | op :: ops => (m.step op).bind (fun m1 => m1.run ops)

/-- The calls `Put(k, v)` for the pairs of a list, in the order of the list. -/
def putAll {K V : Type} (pairs : List (K × V)) : List (MapOp K V) :=
  pairs.map (fun p => MapOp.put p.1 p.2)

/-- The key a call mentions. -/
def MapOp.key {K V : Type} : MapOp K V → K
  | .put key _ => key
  | .del key => key

/-- The last call of a sequence that mentions the key `k`, if any. -/
def lastMention {K V : Type} [DecidableEq K] (ops : List (MapOp K V)) (k : K) :
    Option (MapOp K V) :=
  ops.reverse.find? (fun op => decide (op.key = k))

/-- The last-write-wins dictionary, as the claim words it: the answer to `Get(k)`
after a sequence of calls is `(v, true)` when the last call that mentions `k` is
`Put(k, v)`, and the zero value with `false` when that call is `Del(k)` or no
call mentions `k`. -/
def lastWriteWins {K V : Type} [DecidableEq K] [Inhabited V] (ops : List (MapOp K V)) (k : K) :
    V × Bool :=
  match lastMention ops k with
  | some (.put _ v) => (v, true)
  | some (.del _) => (default, false)
  | none => (default, false)

/-- One mutating call on a set. -/
inductive SetOp (T : Type) where
  | put (val : T)
  | del (val : T)
deriving DecidableEq, Repr

/-- The set after one mutating call (`none` when the call panics). -/
def Set.step {T : Type} [LinearOrder T] (s : Set T) : SetOp T → Option (Set T)
  | .put val => (s.Put val).map Prod.fst
  | .del val => (s.Del val).map Prod.fst

/-- The set after a sequence of mutating calls, applied left to right. -/
def Set.run {T : Type} [LinearOrder T] (s : Set T) : List (SetOp T) → Option (Set T)
  | [] => some s
  | op :: ops => (s.step op).bind (fun s1 => s1.run ops)

/-! ## The package's tests, evaluated on the embedding -/

example : slices.BinarySearch [1, 3, 5, 7] 5 = (2, true) := by decide
example : slices.BinarySearch [1, 3, 5, 7] 4 = (2, false) := by decide
example : StrictAsc [1, 3, 5] := by decide
example : ¬ StrictAsc [1, 3, 3] := by decide

/-- Test `TestSortedMapBasics`: the calls of `map_test.go` lines 33 to 64. -/
example :
    (NewMap : Map Nat String).run [.put 4711 "foo", .put 4711 "hej", .put 4712 "bar"]
        = some ⟨[4711, 4712], ["hej", "bar"]⟩
      ∧ (⟨[4711, 4712], ["hej", "bar"]⟩ : Map Nat String).Get 4711 = some ("hej", true)
      ∧ (⟨[4711, 4712], ["hej", "bar"]⟩ : Map Nat String).Del 4711
          = some (⟨[4712], ["bar"]⟩, true)
      ∧ (⟨[4712], ["bar"]⟩ : Map Nat String).Del 4711 = some (⟨[4712], ["bar"]⟩, false) := by
  decide

/-- Test `TestSortedSet`: the variadic constructor, `set_test.go` line 51. -/
example : (NewSet [4, 3, 4, 4] : Set Int).Values = [3, 4] := by decide

example : (⟨[1, 3, 5], [10, 30, 50]⟩ : Map Nat Nat).Put 2 20
    = some (⟨[1, 2, 3, 5], [10, 20, 30, 50]⟩, true) := by decide

/-- Test `TestSortedSetJSON`: decoding `[7,8,1,1,1,1]`, `set_test.go` lines 68 to 74. -/
example : ((NewSet ([] : List Int)).UnmarshalJSON (jsonUnmarshalInts [])
      "[7,8,1,1,1,1]".toList).1.Values
    = [1, 7, 8] := by decide

example : jsonUnmarshalInts [] "[5,\"x\"]".toList ⟨[1, 2], false⟩
    = (⟨[5, 2], false⟩, some .typeMismatch) := by decide

example : jsonUnmarshalInts [] "[5,,]".toList ⟨[1, 2], false⟩
    = (⟨[1, 2], false⟩, some .invalidText) := by decide

example : jsonUnmarshalInts [] " [3, 1 ]\n".toList ⟨[9], false⟩
    = (⟨[3, 1], false⟩, none) := by decide

example : jsonUnmarshalInts [] "[null,7]".toList ⟨[1, 2], false⟩
    = (⟨[1, 7], false⟩, none) := by decide

example : jsonUnmarshalInts [] "[1.5,2e3,-4]".toList ⟨[8], false⟩
    = (⟨[8, 0, -4], false⟩, some .typeMismatch) := by decide

example : jsonUnmarshalInts [4] "[9,\"x\"]".toList ⟨[1], false⟩
    = (⟨[9, 4], false⟩, some .typeMismatch) := by decide

example : jsonUnmarshalInts [] "[9223372036854775808]".toList ⟨[1], false⟩
    = (⟨[1], false⟩, some .typeMismatch) := by decide

example : jsonUnmarshalInts [] "17".toList ⟨[1], false⟩
    = (⟨[1], false⟩, some .typeMismatch) := by decide

example : jsonUnmarshalInts [] "null".toList ⟨[1], false⟩ = (⟨[], true⟩, none) := by decide

example : (jsonText "a<b\"\n" : Except JsonError Bytes)
    = .ok "\"a\\u003cb\\\"\\n\"".toList := by rfl

example : (jsonString [Char.ofNat 255] : Except JsonError Bytes)
    = .ok "\"\\ufffd\"".toList := by rfl

example : (NewSet ([] : List Int)).MarshalJSON (jsonInt : Int → Except JsonError Bytes)
    = (some "null".toList, none) := by decide

example : (⟨[1, 3, 5], false⟩ : Set Int).MarshalJSON (jsonInt : Int → Except JsonError Bytes)
    = (some "[1,3,5]".toList, none) := by decide

example : (⟨[4711, 4712], ["foo", "bar"]⟩ : Map Int String).MarshalJSON
      (jsonInt : Int → Except JsonError Bytes) jsonText
    = some (some "\x7b\"4711\":\"foo\",\"4712\":\"bar\"\x7d".toList, none) := by decide

/-! ## Lists: the ordering invariant -/

section ListLemmas

variable {E : Type}

theorem strictAsc_iff_pairwise [LinearOrder E] (s : List E) :
    StrictAsc s ↔ s.Pairwise (fun a b => a < b) := by
  rw [← List.chain'_iff_pairwise, List.chain'_iff_get]
  rfl

/-- The three statements `s = append(s, v); copy(s[idx+1:], s[idx:]); s[idx] = v`
insert `v` in front of position `idx`, and do not panic when `idx ≤ len(s)`. -/
theorem insert_steps (s : List E) (v : E) (idx : Nat) (h : idx ≤ s.length) :
    (slices.copyWithin (slices.append s v) (idx + 1) idx).bind
        (fun t => slices.setAt t idx v) = some (s.take idx ++ v :: s.drop idx) := by
  have h1 : slices.copyWithin (slices.append s v) (idx + 1) idx
      = some ((s ++ [v]).take (idx + 1) ++ s.drop idx) := by
    unfold slices.copyWithin slices.append
    have hlen : (s ++ [v]).length = s.length + 1 := by simp
    rw [if_pos (by omega)]
    have hmin : min ((s ++ [v]).length - (idx + 1)) ((s ++ [v]).length - idx)
        = s.length - idx := by omega
    have hd : idx + 1 + (s.length - idx) = (s ++ [v]).length := by omega
    simp only [hmin, hd, List.drop_length, List.append_nil]
    have e : List.take (s.length - idx) (List.drop idx s ++ [v]) = List.drop idx s :=
      List.take_left' (by simp)
    rw [List.drop_append_of_le_length h, e]
  rw [h1, Option.some_bind]
  unfold slices.setAt
  have hl : ((s ++ [v]).take (idx + 1) ++ s.drop idx).length = s.length + 1 := by
    simp; omega
  rw [if_pos (by omega)]
  congr 1
  apply List.ext_getElem?
  intro p
  rw [List.getElem?_set]
  by_cases hp : idx = p
  · subst hp
    have e : (List.take idx s).length = idx := by simp [h]
    have rhs : (List.take idx s ++ v :: List.drop idx s)[idx]? = some v := by
      rw [List.getElem?_append_right (by omega), e]; simp
    rw [rhs, if_pos rfl, if_pos (by omega)]
  · rw [if_neg hp]
    rcases Nat.lt_or_gt_of_ne hp with hlt | hgt
    · rw [List.getElem?_append_right (by simp; omega),
        List.getElem?_append_right (by simp; omega)]
      simp only [List.length_take, List.length_append, List.length_singleton]
      have e1 : p - min (idx + 1) (s.length + 1) = p - idx - 1 := by omega
      have e2 : p - min idx s.length = (p - idx - 1) + 1 := by omega
      rw [e1, e2, List.getElem?_cons_succ]
    · rw [List.getElem?_append_left (by simp; omega),
        List.getElem?_append_left (by simp; omega)]
      rw [List.getElem?_take_of_lt (by omega), List.getElem?_take_of_lt hgt,
        List.getElem?_append_left (by omega)]

/-! ## The binary search -/

/-- The loop result stays between its two bounds, on any input. -/
theorem searchLoop_range [LinearOrder E] (x : List E) (t : E) :
    ∀ (fuel i j : Nat) (hj : j ≤ x.length), i ≤ j →
      i ≤ slices.searchLoop x t fuel i j hj ∧ slices.searchLoop x t fuel i j hj ≤ j := by
  intro fuel
  induction fuel with
  | zero => intro i j hj hij; simp [slices.searchLoop, hij]
  | succ fuel ih =>
    intro i j hj hij
    unfold slices.searchLoop
    split
    · split
      · have := ih ((i + j) / 2 + 1) j hj (by omega)
        omega
      · have := ih i ((i + j) / 2) (by omega) (by omega)
        omega
    · omega

/-- Once the iteration bound covers `j - i`, the loop result no longer depends on it:
the loop has run to its exit condition `i ≥ j`. -/
theorem searchLoop_fuel [LinearOrder E] (x : List E) (t : E) :
    ∀ (fuel fuel2 i j : Nat) (hj : j ≤ x.length), j - i ≤ fuel → j - i ≤ fuel2 →
      slices.searchLoop x t fuel i j hj = slices.searchLoop x t fuel2 i j hj := by
  intro fuel
  induction fuel with
  | zero =>
    intro fuel2 i j hj h1 _
    cases fuel2 with
    | zero => rfl
    | succ f2 =>
      unfold slices.searchLoop
      rw [dif_neg (by omega)]
  | succ fuel ih =>
    intro fuel2 i j hj h1 h2
    cases fuel2 with
    | zero =>
      unfold slices.searchLoop
      rw [dif_neg (by omega)]
    | succ f2 =>
      rw [slices.searchLoop, slices.searchLoop]
      split
      · split
        · exact ih f2 _ _ _ (by omega) (by omega)
        · exact ih f2 _ _ _ (by omega) (by omega)
      · rfl

/-- Loop invariant of the binary search on a strictly ascending slice:
everything left of `i` is below the target, everything from `j` on is not. -/
theorem searchLoop_spec [LinearOrder E] (x : List E) (t : E)
    (hs : x.Pairwise (fun a b => a < b)) :
    ∀ (fuel i j : Nat) (hj : j ≤ x.length), i ≤ j → j - i ≤ fuel →
      (∀ p (hp : p < x.length), p < i → x[p] < t) →
      (∀ p (hp : p < x.length), j ≤ p → t ≤ x[p]) →
      (∀ p (hp : p < x.length), p < slices.searchLoop x t fuel i j hj → x[p] < t) ∧
      (∀ p (hp : p < x.length), slices.searchLoop x t fuel i j hj ≤ p → t ≤ x[p]) := by
  intro fuel
  induction fuel with
  | zero =>
    intro i j hj hij hf hlo hhi
    have : i = j := by omega
    subst this
    exact ⟨hlo, hhi⟩
  | succ fuel ih =>
    intro i j hj hij hf hlo hhi
    unfold slices.searchLoop
    split
    · rename_i hlt
      have hh : (i + j) / 2 < x.length := by omega
      split
      · rename_i hcmp
        apply ih _ _ hj (by omega) (by omega) _ hhi
        intro p hp hpl
        rcases Nat.lt_or_ge p ((i + j) / 2) with h1 | h1
        · exact lt_trans (List.pairwise_iff_getElem.mp hs p _ hp hh h1) hcmp
        · have : p = (i + j) / 2 := by omega
          subst this
          exact hcmp
      · rename_i hcmp
        apply ih _ _ _ (by omega) (by omega) hlo
        intro p hp hpl
        rcases Nat.lt_or_ge ((i + j) / 2) p with h1 | h1
        · exact le_of_lt (lt_of_le_of_lt (not_lt.mp hcmp)
            (List.pairwise_iff_getElem.mp hs _ p hh hp h1))
        · have : p = (i + j) / 2 := by omega
          subst this
          exact not_lt.mp hcmp
    · have : i = j := by omega
      subst this
      exact ⟨hlo, hhi⟩

/-- The index returned by the search is at most the length, on any input. -/
theorem BinarySearch_le [LinearOrder E] (x : List E) (t : E) :
    (slices.BinarySearch x t).1 ≤ x.length :=
  (searchLoop_range x t x.length 0 x.length (Nat.le_refl _) (Nat.zero_le _)).2

/-- The found flag says the element at the returned index is the target. -/
theorem BinarySearch_found [LinearOrder E] (x : List E) (t : E) :
    (slices.BinarySearch x t).2 = true ↔ x[(slices.BinarySearch x t).1]? = some t := by
  unfold slices.BinarySearch
  simp only
  split
  · rename_i h
    rw [List.getElem?_eq_getElem h]
    simp
  · rename_i h
    rw [List.getElem?_eq_none (by omega)]
    simp

/-- On a strictly ascending slice the search returns the insertion index:
all elements before it are below the target, all others are at least the target. -/
theorem BinarySearch_spec [LinearOrder E] (x : List E) (t : E)
    (hs : x.Pairwise (fun a b => a < b)) :
    (∀ p (hp : p < x.length), p < (slices.BinarySearch x t).1 → x[p] < t) ∧
    (∀ p (hp : p < x.length), (slices.BinarySearch x t).1 ≤ p → t ≤ x[p]) :=
  searchLoop_spec x t hs x.length 0 x.length (Nat.le_refl _) (Nat.zero_le _) (by omega)
    (fun p _ h => absurd h (Nat.not_lt_zero p)) (fun p hp h => absurd hp (by omega))

/-- On a strictly ascending slice the found flag decides membership. -/
theorem BinarySearch_mem [LinearOrder E] (x : List E) (t : E)
    (hs : x.Pairwise (fun a b => a < b)) :
    (slices.BinarySearch x t).2 = true ↔ t ∈ x := by
  rw [BinarySearch_found]
  constructor
  · intro h
    exact List.getElem?_mem h
  · intro h
    obtain ⟨p, hp, rfl⟩ := List.getElem_of_mem h
    obtain ⟨hlo, hhi⟩ := BinarySearch_spec x x[p] hs
    rcases Nat.lt_trichotomy p (slices.BinarySearch x x[p]).1 with h1 | h1 | h1
    · exact absurd (hlo p hp h1) (lt_irrefl _)
    · rw [← h1, List.getElem?_eq_getElem hp]
    · have hi : (slices.BinarySearch x x[p]).1 < x.length := by omega
      have h2 := hhi _ hi (Nat.le_refl _)
      have h3 := List.pairwise_iff_getElem.mp hs _ p hi hp h1
      exact absurd (lt_of_le_of_lt h2 h3) (lt_irrefl _)

/-- On a strictly ascending slice, the search for the element at position `p`
returns `p` and `true`. -/
theorem BinarySearch_getElem [LinearOrder E] (x : List E) (t : E)
    (hs : x.Pairwise (fun a b => a < b)) (p : Nat) (hp : x[p]? = some t) :
    slices.BinarySearch x t = (p, true) := by
  have hf : (slices.BinarySearch x t).2 = true :=
    (BinarySearch_mem x t hs).mpr (List.getElem?_mem hp)
  have hi := (BinarySearch_found x t).mp hf
  obtain ⟨hpl, hpe⟩ := List.getElem?_eq_some.mp hp
  obtain ⟨hil, hie⟩ := List.getElem?_eq_some.mp hi
  have : (slices.BinarySearch x t).1 = p := by
    rcases Nat.lt_trichotomy (slices.BinarySearch x t).1 p with h | h | h
    · have := List.pairwise_iff_getElem.mp hs _ _ hil hpl h
      rw [hpe, hie] at this
      exact absurd this (lt_irrefl _)
    · exact h
    · have := List.pairwise_iff_getElem.mp hs _ _ hpl hil h
      rw [hpe, hie] at this
      exact absurd this (lt_irrefl _)
  exact Prod.ext this hf

/-- Inserting an absent target at the index returned by the search keeps the
slice strictly ascending. -/
theorem pairwise_insert [LinearOrder E] (x : List E) (t : E)
    (hs : x.Pairwise (fun a b => a < b)) (hn : t ∉ x) :
    (x.take (slices.BinarySearch x t).1 ++ t :: x.drop (slices.BinarySearch x t).1).Pairwise
      (fun a b => a < b) := by
  obtain ⟨hlo, hhi⟩ := BinarySearch_spec x t hs
  have hdrop : ∀ b ∈ x.drop (slices.BinarySearch x t).1, t < b := by
    intro b hb
    obtain ⟨q, hq, rfl⟩ := List.mem_drop_iff_getElem.mp hb
    have hle := hhi _ (by omega) (Nat.le_add_right _ q)
    rcases lt_or_eq_of_le hle with h | h
    · exact h
    · exact absurd (h ▸ List.getElem_mem _) hn
  rw [List.pairwise_append]
  refine ⟨hs.sublist (List.take_sublist _ _), ?_, ?_⟩
  · rw [List.pairwise_cons]
    exact ⟨hdrop, hs.sublist (List.drop_sublist _ _)⟩
  · intro a ha b hb
    obtain ⟨q, hq, rfl⟩ := List.mem_take_iff_getElem.mp ha
    have hat := hlo q (by omega) (by omega)
    rcases List.mem_cons.mp hb with rfl | hb
    · exact hat
    · exact lt_trans hat (hdrop b hb)

/-- Two insertions of the same element that both give a strictly ascending
slice are at the same index. -/
theorem insert_index_unique [LinearOrder E] (x : List E) (t : E) (i j : Nat)
    (hi : i ≤ x.length) (hj : j ≤ x.length)
    (h1 : (x.take i ++ t :: x.drop i).Pairwise (fun a b => a < b))
    (h2 : (x.take j ++ t :: x.drop j).Pairwise (fun a b => a < b)) : j = i := by
  have hperm : (x.take j ++ t :: x.drop j).Perm (x.take i ++ t :: x.drop i) := by
    refine List.perm_middle.trans (List.Perm.trans ?_ List.perm_middle.symm)
    rw [List.take_append_drop, List.take_append_drop]
  have heq := List.eq_of_perm_of_sorted hperm
    (List.Pairwise.imp (fun h => le_of_lt h) h2) (List.Pairwise.imp (fun h => le_of_lt h) h1)
  have e1 : (x.take i ++ t :: x.drop i)[i]? = some t := by
    rw [List.getElem?_append_right (by simp [hi])]; simp [hi]
  have e2 : (x.take i ++ t :: x.drop i)[j]? = some t := by
    rw [← heq, List.getElem?_append_right (by simp [hj])]; simp [hj]
  obtain ⟨a1, b1⟩ := List.getElem?_eq_some.mp e1
  obtain ⟨a2, b2⟩ := List.getElem?_eq_some.mp e2
  exact (h1.nodup.getElem_inj_iff).mp (b2.trans b1.symm)

end ListLemmas

/-! ## `Map`: what each call computes -/

section MapLemmas

variable {K V : Type} [LinearOrder K]

theorem Map.wellFormed_iff (m : Map K V) :
    m.WellFormed ↔ m.keys.Pairwise (fun a b => a < b) ∧ m.keys.length = m.vals.length := by
  unfold Map.WellFormed
  rw [strictAsc_iff_pairwise]

/-- Call `Put` on a key the search finds: the value slot is overwritten. -/
theorem Map.Put_found (m : Map K V) (key : K) (value : V)
    (hf : (slices.BinarySearch m.keys key).2 = true) (hlen : m.keys.length = m.vals.length) :
    m.Put key value
      = some ({ keys := m.keys, vals := m.vals.set (slices.BinarySearch m.keys key).1 value },
          false) := by
  have hi := (BinarySearch_found m.keys key).mp hf
  obtain ⟨hil, _⟩ := List.getElem?_eq_some.mp hi
  unfold Map.Put Map.keySearch
  rcases hb : slices.BinarySearch m.keys key with ⟨idx, found⟩
  rw [hb] at hf hil
  simp only at hf hil
  subst hf
  simp only [slices.setAt]
  rw [if_pos (by omega)]
  rfl

/-- Call `Put` on a key the search does not find: key and value are inserted at the
returned index. -/
theorem Map.Put_not_found (m : Map K V) (key : K) (value : V)
    (hf : (slices.BinarySearch m.keys key).2 = false) (hlen : m.keys.length = m.vals.length) :
    m.Put key value
      = some ({ keys := m.keys.take (slices.BinarySearch m.keys key).1
                  ++ key :: m.keys.drop (slices.BinarySearch m.keys key).1,
                vals := m.vals.take (slices.BinarySearch m.keys key).1
                  ++ value :: m.vals.drop (slices.BinarySearch m.keys key).1 }, true) := by
  have hle := BinarySearch_le m.keys key
  unfold Map.Put Map.keySearch
  rcases hb : slices.BinarySearch m.keys key with ⟨idx, found⟩
  rw [hb] at hf hle
  simp only at hf hle
  subst hf
  have hk := insert_steps m.keys key idx hle
  have hv := insert_steps m.vals value idx (by omega)
  simp only [Option.bind_eq_bind, bind_assoc] at *
  obtain ⟨k1, hk1, hk2⟩ := Option.bind_eq_some.mp hk
  obtain ⟨v1, hv1, hv2⟩ := Option.bind_eq_some.mp hv
  simp [hk1, hk2, hv1, hv2]

/-- Call `Get` on a key the search finds. -/
theorem Map.Get_found [Inhabited V] (m : Map K V) (key : K)
    (hf : (slices.BinarySearch m.keys key).2 = true) :
    m.Get key = (m.vals[(slices.BinarySearch m.keys key).1]?).map (fun v => (v, true)) := by
  unfold Map.Get Map.keySearch
  rcases hb : slices.BinarySearch m.keys key with ⟨idx, found⟩
  rw [hb] at hf
  simp only at hf
  subst hf
  rfl

/-- Call `Get` on a key the search does not find. -/
theorem Map.Get_not_found [Inhabited V] (m : Map K V) (key : K)
    (hf : (slices.BinarySearch m.keys key).2 = false) :
    m.Get key = some (default, false) := by
  unfold Map.Get Map.keySearch
  rcases hb : slices.BinarySearch m.keys key with ⟨idx, found⟩
  rw [hb] at hf
  simp only at hf
  subst hf
  rfl

/-- Call `Del` on a key the search finds: key and value at the returned index are removed. -/
theorem Map.Del_found (m : Map K V) (key : K)
    (hf : (slices.BinarySearch m.keys key).2 = true) (hlen : m.keys.length = m.vals.length) :
    m.Del key
      = some ({ keys := m.keys.eraseIdx (slices.BinarySearch m.keys key).1,
                vals := m.vals.eraseIdx (slices.BinarySearch m.keys key).1 }, true) := by
  have hi := (BinarySearch_found m.keys key).mp hf
  obtain ⟨hil, _⟩ := List.getElem?_eq_some.mp hi
  unfold Map.Del
  rcases hb : slices.BinarySearch m.keys key with ⟨idx, found⟩
  rw [hb] at hf hil
  simp only at hf hil
  subst hf
  simp only [slices.Delete, List.eraseIdx_eq_take_drop_succ]
  rw [if_pos (by omega), if_pos (by omega)]
  rfl

/-- Call `Del` on a key the search does not find: nothing changes. -/
theorem Map.Del_not_found (m : Map K V) (key : K)
    (hf : (slices.BinarySearch m.keys key).2 = false) :
    m.Del key = some (m, false) := by
  unfold Map.Del
  rcases hb : slices.BinarySearch m.keys key with ⟨idx, found⟩
  rw [hb] at hf
  simp only at hf
  subst hf
  rfl

/-- Call `Put` never panics on a well-formed map and returns a well-formed map. -/
theorem Map.Put_wellFormed (m : Map K V) (key : K) (value : V) (hwf : m.WellFormed) :
    ∃ m1 b, m.Put key value = some (m1, b) ∧ m1.WellFormed := by
  obtain ⟨hs, hlen⟩ := (Map.wellFormed_iff m).mp hwf
  cases hf : (slices.BinarySearch m.keys key).2 with
  | true =>
    refine ⟨_, _, Map.Put_found m key value hf hlen, ?_⟩
    rw [Map.wellFormed_iff]
    exact ⟨hs, by simp [hlen]⟩
  | false =>
    refine ⟨_, _, Map.Put_not_found m key value hf hlen, ?_⟩
    rw [Map.wellFormed_iff]
    have hn : key ∉ m.keys := fun h => by
      rw [(BinarySearch_mem m.keys key hs).mpr h] at hf; exact Bool.noConfusion hf
    refine ⟨pairwise_insert m.keys key hs hn, ?_⟩
    have := BinarySearch_le m.keys key
    simp only [List.length_append, List.length_take, List.length_cons, List.length_drop]
    omega

/-- Call `Del` never panics on a well-formed map and returns a well-formed map. -/
theorem Map.Del_wellFormed (m : Map K V) (key : K) (hwf : m.WellFormed) :
    ∃ m1 b, m.Del key = some (m1, b) ∧ m1.WellFormed := by
  obtain ⟨hs, hlen⟩ := (Map.wellFormed_iff m).mp hwf
  cases hf : (slices.BinarySearch m.keys key).2 with
  | true =>
    refine ⟨_, _, Map.Del_found m key hf hlen, ?_⟩
    rw [Map.wellFormed_iff]
    exact ⟨hs.sublist (List.eraseIdx_sublist _ _), by simp [List.length_eraseIdx, hlen]⟩
  | false => exact ⟨_, _, Map.Del_not_found m key hf, hwf⟩

theorem Map.step_wellFormed (m : Map K V) (op : MapOp K V) (hwf : m.WellFormed) :
    ∃ m1, m.step op = some m1 ∧ m1.WellFormed := by
  cases op with
  | put key value =>
    obtain ⟨m1, b, h, hw⟩ := Map.Put_wellFormed m key value hwf
    exact ⟨m1, by simp [Map.step, h], hw⟩
  | del key =>
    obtain ⟨m1, b, h, hw⟩ := Map.Del_wellFormed m key hwf
    exact ⟨m1, by simp [Map.step, h], hw⟩

/-- A sequence of calls on a well-formed map never panics and ends in a
well-formed map. -/
theorem Map.run_wellFormed (ops : List (MapOp K V)) :
    ∀ m : Map K V, m.WellFormed → ∃ m1, m.run ops = some m1 ∧ m1.WellFormed := by
  induction ops with
  | nil => intro m hwf; exact ⟨m, rfl, hwf⟩
  | cons op ops ih =>
    intro m hwf
    obtain ⟨m1, h1, hw1⟩ := Map.step_wellFormed m op hwf
    obtain ⟨m2, h2, hw2⟩ := ih m1 hw1
    exact ⟨m2, by simp [Map.run, h1, h2], hw2⟩

theorem NewMap_wellFormed : (NewMap : Map K V).WellFormed := by
  rw [Map.wellFormed_iff]
  exact ⟨List.Pairwise.nil, rfl⟩

/-- On a well-formed map `Contains` decides membership in the key slice. -/
theorem Map.Contains_iff_mem (m : Map K V) (k : K) (hwf : m.WellFormed) :
    m.Contains k = true ↔ k ∈ m.keys :=
  BinarySearch_mem m.keys k ((Map.wellFormed_iff m).mp hwf).1

theorem Map.not_found_of_not_mem (m : Map K V) (k : K) (hwf : m.WellFormed) (hk : k ∉ m.keys) :
    (slices.BinarySearch m.keys k).2 = false := by
  cases hf : (slices.BinarySearch m.keys k).2 with
  | true => exact absurd ((Map.Contains_iff_mem m k hwf).mp hf) hk
  | false => rfl

/-- On a well-formed map, `Get` of the key at position `i` reads the value at
position `i`. -/
theorem Map.Get_of_getElem [Inhabited V] (m : Map K V) (k : K) (hwf : m.WellFormed)
    (i : Nat) (hk : m.keys[i]? = some k) :
    m.Get k = (m.vals[i]?).map (fun v => (v, true)) := by
  have hb := BinarySearch_getElem m.keys k ((Map.wellFormed_iff m).mp hwf).1 i hk
  rw [Map.Get_found m k (by rw [hb]), hb]

/-- Call `Put` of a present key on a well-formed map. -/
theorem Map.Put_mem_eq (m : Map K V) (k : K) (v : V) (hwf : m.WellFormed) (hk : k ∈ m.keys) :
    ∃ i, m.keys[i]? = some k
      ∧ m.Put k v = some ({ keys := m.keys, vals := m.vals.set i v }, false) := by
  have hf := (Map.Contains_iff_mem m k hwf).mpr hk
  exact ⟨_, (BinarySearch_found m.keys k).mp hf, Map.Put_found m k v hf hwf.2⟩

/-- Call `Put` of an absent key on a well-formed map. -/
theorem Map.Put_not_mem_eq (m : Map K V) (k : K) (v : V) (hwf : m.WellFormed)
    (hk : k ∉ m.keys) :
    ∃ i, i ≤ m.keys.length
      ∧ m.Put k v = some ({ keys := m.keys.take i ++ k :: m.keys.drop i,
                            vals := m.vals.take i ++ v :: m.vals.drop i }, true)
      ∧ (m.keys.take i ++ k :: m.keys.drop i).Pairwise (fun a b => a < b) :=
  ⟨_, BinarySearch_le m.keys k,
    Map.Put_not_found m k v (Map.not_found_of_not_mem m k hwf hk) hwf.2,
    pairwise_insert m.keys k ((Map.wellFormed_iff m).mp hwf).1 hk⟩

/-- Call `Del` of a present key on a well-formed map. -/
theorem Map.Del_mem_eq (m : Map K V) (k : K) (hwf : m.WellFormed) (hk : k ∈ m.keys) :
    ∃ i, m.keys[i]? = some k
      ∧ m.Del k = some ({ keys := m.keys.eraseIdx i, vals := m.vals.eraseIdx i }, true) := by
  have hf := (Map.Contains_iff_mem m k hwf).mpr hk
  exact ⟨_, (BinarySearch_found m.keys k).mp hf, Map.Del_found m k hf hwf.2⟩

/-- The element inserted at index `i` is read back at index `i`. -/
theorem getElem?_insert_self {E : Type} (s : List E) (v : E) (i : Nat) (h : i ≤ s.length) :
    (s.take i ++ v :: s.drop i)[i]? = some v := by
  rw [List.getElem?_append_right (by simp)]; simp [h]

/-- After `Put(k, v)` on a well-formed map: no panic, the result is well formed,
and `k` sits at some index `i` of the keys with `v` at index `i` of the values. -/
theorem Map.Put_post (m : Map K V) (k : K) (v : V) (hwf : m.WellFormed) :
    ∃ (m1 : Map K V) (b : Bool) (i : Nat), m.Put k v = some (m1, b) ∧ m1.WellFormed
      ∧ m1.keys[i]? = some k ∧ m1.vals[i]? = some v := by
  obtain ⟨m1, b, hp, hw1⟩ := Map.Put_wellFormed m k v hwf
  by_cases hk : k ∈ m.keys
  · obtain ⟨i, hi, he⟩ := Map.Put_mem_eq m k v hwf hk
    obtain ⟨hil, _⟩ := List.getElem?_eq_some.mp hi
    refine ⟨_, _, i, he, ?_, hi, ?_⟩
    · rw [he] at hp; cases hp; exact hw1
    · simp only
      rw [List.getElem?_set_self (by have := hwf.2; omega)]
  · obtain ⟨i, hi, he, _⟩ := Map.Put_not_mem_eq m k v hwf hk
    refine ⟨_, _, i, he, ?_, getElem?_insert_self _ _ _ hi,
      getElem?_insert_self _ _ _ (by have := hwf.2; omega)⟩
    rw [he] at hp; cases hp; exact hw1

/-- Reading around an insertion: positions before `i` are untouched. -/
theorem getElem?_insert_lt {E : Type} (s : List E) (v : E) (i p : Nat) (h : i ≤ s.length)
    (hp : p < i) : (s.take i ++ v :: s.drop i)[p]? = s[p]? := by
  rw [List.getElem?_append_left (by simp; omega), List.getElem?_take_of_lt hp]

/-- Reading around an insertion: positions from `i` on are shifted right by one. -/
theorem getElem?_insert_ge {E : Type} (s : List E) (v : E) (i p : Nat) (h : i ≤ s.length)
    (hp : i ≤ p) : (s.take i ++ v :: s.drop i)[p + 1]? = s[p]? := by
  rw [List.getElem?_append_right (by simp; omega)]
  have e : p + 1 - (List.take i s).length = (p - i) + 1 := by simp; omega
  rw [e, List.getElem?_cons_succ, List.getElem?_drop]
  congr 1
  omega

/-- In a strictly ascending slice an element occurs at one index only. -/
theorem index_unique {E : Type} [LinearOrder E] (x : List E) (t : E)
    (hs : x.Pairwise (fun a b => a < b)) (i j : Nat)
    (hi : x[i]? = some t) (hj : x[j]? = some t) : i = j := by
  have h1 := BinarySearch_getElem x t hs i hi
  have h2 := BinarySearch_getElem x t hs j hj
  rw [h1] at h2
  exact (Prod.mk.inj h2).1

end MapLemmas

/-! ## `Set`: sorting, compacting and what each call computes -/

section SetLemmas

variable {T : Type} [LinearOrder T]

/-- Any ascending rearrangement of a slice is the result of `SortSlice`: the
choice of sorting algorithm cannot be observed. -/
theorem SortSlice_unique (l l2 : List T) (hp : l2.Perm l)
    (hs : l2.Pairwise (fun a b => a ≤ b)) : l2 = slices.SortSlice l :=
  List.eq_of_perm_of_sorted (hp.trans (List.perm_insertionSort _ l).symm) hs
    (List.sorted_insertionSort _ l)

theorem mem_compactFrom (l : List T) :
    ∀ (prev a : T), a ∈ prev :: slices.compactFrom prev l ↔ a ∈ prev :: l := by
  induction l with
  | nil => intro prev a; simp [slices.compactFrom]
  | cons b rest ih =>
    intro prev a
    unfold slices.compactFrom
    by_cases hb : b = prev
    · subst hb
      rw [if_pos rfl, ih b a]
      simp
    · rw [if_neg hb, List.mem_cons, ih b a]
      simp

theorem pairwise_compactFrom (l : List T) :
    ∀ prev : T, (prev :: l).Pairwise (fun a b => a ≤ b) →
      (prev :: slices.compactFrom prev l).Pairwise (fun a b => a < b) := by
  induction l with
  | nil => intro prev _; simp [slices.compactFrom]
  | cons b rest ih =>
    intro prev h
    have hrest := (List.pairwise_cons.mp h).2
    have hpb : prev ≤ b := (List.pairwise_cons.mp h).1 b (List.mem_cons_self _ _)
    have ihb := ih b hrest
    unfold slices.compactFrom
    by_cases hb : b = prev
    · subst hb
      rw [if_pos rfl]
      exact ihb
    · rw [if_neg hb]
      have hlt : prev < b := lt_of_le_of_ne hpb (fun e => hb e.symm)
      rw [List.pairwise_cons]
      refine ⟨?_, ihb⟩
      intro c hc
      rcases List.mem_cons.mp hc with rfl | hc
      · exact hlt
      · exact lt_trans hlt ((List.pairwise_cons.mp ihb).1 c hc)

theorem mem_Compact (l : List T) (a : T) : a ∈ slices.Compact l ↔ a ∈ l := by
  cases l with
  | nil => simp [slices.Compact]
  | cons b rest => exact mem_compactFrom rest b a

theorem pairwise_Compact (l : List T) (h : l.Pairwise (fun a b => a ≤ b)) :
    (slices.Compact l).Pairwise (fun a b => a < b) := by
  cases l with
  | nil => simp [slices.Compact]
  | cons b rest => exact pairwise_compactFrom rest b h

/-- Function `toSliceSet` returns a strictly ascending slice. -/
theorem pairwise_toSliceSet (l : List T) : (toSliceSet l).Pairwise (fun a b => a < b) :=
  pairwise_Compact _ (List.sorted_insertionSort _ l)

/-- Function `toSliceSet` keeps exactly the elements of its input. -/
theorem mem_toSliceSet (l : List T) (a : T) : a ∈ toSliceSet l ↔ a ∈ l := by
  unfold toSliceSet
  rw [mem_Compact]
  exact (List.perm_insertionSort _ l).mem_iff

/-- Call `Set.Put` on a value the search finds: nothing changes. -/
theorem Set.Put_present (s : Set T) (val : T)
    (hf : (slices.BinarySearch s.vals val).2 = true) : s.Put val = some (s, false) := by
  unfold Set.Put Set.keySearch
  rcases hb : slices.BinarySearch s.vals val with ⟨idx, found⟩
  rw [hb] at hf
  simp only at hf
  subst hf
  rfl

/-- Call `Set.Put` on a value the search does not find: it is inserted at the
returned index. -/
theorem Set.Put_absent (s : Set T) (val : T)
    (hf : (slices.BinarySearch s.vals val).2 = false) :
    s.Put val
      = some ({ vals := s.vals.take (slices.BinarySearch s.vals val).1
                  ++ val :: s.vals.drop (slices.BinarySearch s.vals val).1 }, true) := by
  have hle := BinarySearch_le s.vals val
  unfold Set.Put Set.keySearch
  rcases hb : slices.BinarySearch s.vals val with ⟨idx, found⟩
  rw [hb] at hf hle
  simp only at hf hle
  subst hf
  have hk := insert_steps s.vals val idx hle
  simp only [Option.bind_eq_bind] at *
  obtain ⟨k1, hk1, hk2⟩ := Option.bind_eq_some.mp hk
  simp [hk1, hk2]

/-- Call `Set.Del` on a value the search finds: the element at the returned index
is removed. -/
theorem Set.Del_present (s : Set T) (val : T)
    (hf : (slices.BinarySearch s.vals val).2 = true) :
    s.Del val
      = some ({ vals := s.vals.eraseIdx (slices.BinarySearch s.vals val).1 }, true) := by
  have hi := (BinarySearch_found s.vals val).mp hf
  obtain ⟨hil, _⟩ := List.getElem?_eq_some.mp hi
  unfold Set.Del
  rcases hb : slices.BinarySearch s.vals val with ⟨idx, found⟩
  rw [hb] at hf hil
  simp only at hf hil
  subst hf
  simp only [slices.Delete, List.eraseIdx_eq_take_drop_succ]
  rw [if_pos (by omega)]
  rfl

/-- Call `Set.Del` on a value the search does not find: nothing changes. -/
theorem Set.Del_absent (s : Set T) (val : T)
    (hf : (slices.BinarySearch s.vals val).2 = false) : s.Del val = some (s, false) := by
  unfold Set.Del
  rcases hb : slices.BinarySearch s.vals val with ⟨idx, found⟩
  rw [hb] at hf
  simp only at hf
  subst hf
  rfl

/-- Call `Set.Put` on a strictly ascending set returns a strictly ascending set. -/
theorem Set.Put_pairwise (s : Set T) (val : T) (hs : s.vals.Pairwise (fun a b => a < b)) :
    ∃ s1 b, s.Put val = some (s1, b) ∧ s1.vals.Pairwise (fun a b => a < b) := by
  cases hf : (slices.BinarySearch s.vals val).2 with
  | true => exact ⟨_, _, Set.Put_present s val hf, hs⟩
  | false =>
    have hn : val ∉ s.vals := fun h => by
      rw [(BinarySearch_mem s.vals val hs).mpr h] at hf; exact Bool.noConfusion hf
    exact ⟨_, _, Set.Put_absent s val hf, pairwise_insert s.vals val hs hn⟩

/-- Call `Set.Del` on a strictly ascending set returns a strictly ascending set. -/
theorem Set.Del_pairwise (s : Set T) (val : T) (hs : s.vals.Pairwise (fun a b => a < b)) :
    ∃ s1 b, s.Del val = some (s1, b) ∧ s1.vals.Pairwise (fun a b => a < b) := by
  cases hf : (slices.BinarySearch s.vals val).2 with
  | true => exact ⟨_, _, Set.Del_present s val hf, hs.sublist (List.eraseIdx_sublist _ _)⟩
  | false => exact ⟨_, _, Set.Del_absent s val hf, hs⟩

theorem Set.step_pairwise (s : Set T) (op : SetOp T)
    (hs : s.vals.Pairwise (fun a b => a < b)) :
    ∃ s1, s.step op = some s1 ∧ s1.vals.Pairwise (fun a b => a < b) := by
  cases op with
  | put val =>
    obtain ⟨s1, b, h, hw⟩ := Set.Put_pairwise s val hs
    exact ⟨s1, by simp [Set.step, h], hw⟩
  | del val =>
    obtain ⟨s1, b, h, hw⟩ := Set.Del_pairwise s val hs
    exact ⟨s1, by simp [Set.step, h], hw⟩

/-- A sequence of calls on a strictly ascending set never panics and ends in a
strictly ascending set. -/
theorem Set.run_pairwise (ops : List (SetOp T)) :
    ∀ s : Set T, s.vals.Pairwise (fun a b => a < b) →
      ∃ s1, s.run ops = some s1 ∧ s1.vals.Pairwise (fun a b => a < b) := by
  induction ops with
  | nil => intro s hs; exact ⟨s, rfl, hs⟩
  | cons op ops ih =>
    intro s hs
    obtain ⟨s1, h1, hw1⟩ := Set.step_pairwise s op hs
    obtain ⟨s2, h2, hw2⟩ := ih s1 hw1
    exact ⟨s2, by simp [Set.run, h1, h2], hw2⟩

end SetLemmas

/-! ## The map contract -/

section MapClaims

variable {K V : Type} [LinearOrder K]

/-- C1. Map ordering invariant: every finite sequence of `Put` and `Del` calls
on `NewMap()` runs without panic, and after every call (after each prefix
`ops.take n` of the sequence) `Keys()` is strictly ascending, `keys[i] < keys[i+1]`
for all valid `i`, and holds no key twice. -/
theorem C1_map_keys_strictly_ascending (ops : List (MapOp K V)) (n : Nat) :
    ∃ m : Map K V, (NewMap : Map K V).run (ops.take n) = some m
      ∧ StrictAsc m.Keys ∧ m.Keys.Nodup := by
  obtain ⟨m, h, hw⟩ := Map.run_wellFormed (ops.take n) NewMap NewMap_wellFormed
  exact ⟨m, h, hw.1, ((Map.wellFormed_iff m).mp hw).1.nodup⟩

/-- C2. Put then Get: on a well-formed map (keys strictly ascending, as many
values as keys) `Put(k, v)` returns, and afterwards `Get(k)` returns `(v, true)`
and `Contains(k)` is true. -/
theorem C2_put_then_get [Inhabited V] (m : Map K V) (k : K) (v : V) (hwf : m.WellFormed) :
    ∃ m1 b, m.Put k v = some (m1, b) ∧ m1.Get k = some (v, true) ∧ m1.Contains k = true := by
  obtain ⟨m1, b, i, hp, hw1, hk, hv⟩ := Map.Put_post m k v hwf
  refine ⟨m1, b, hp, ?_, ?_⟩
  · rw [Map.Get_of_getElem m1 k hw1 i hk, hv]
    rfl
  · exact (Map.Contains_iff_mem m1 k hw1).mpr (List.getElem?_mem hk)

/-- Witness for C2: a two-key map and a new key. -/
theorem C2_put_then_get_witness :
    (⟨[1, 3], [10, 30]⟩ : Map Nat Nat).WellFormed
      ∧ ∃ m1 b, (⟨[1, 3], [10, 30]⟩ : Map Nat Nat).Put 2 20 = some (m1, b)
          ∧ m1.Get 2 = some (20, true) ∧ m1.Contains 2 = true :=
  ⟨by decide, C2_put_then_get ⟨[1, 3], [10, 30]⟩ 2 20 (by decide)⟩

/-- C3. Put overwrites an existing key: on a well-formed map, `Put(k, v1)` then
`Put(k, v2)` both return, the second returns false and leaves `Len()` and
`Keys()` as they were after the first, and `Get(k)` then returns `(v2, true)`. -/
theorem C3_put_overwrites [Inhabited V] (m : Map K V) (k : K) (v1 v2 : V)
    (hwf : m.WellFormed) :
    ∃ m1 b1 m2, m.Put k v1 = some (m1, b1) ∧ m1.Put k v2 = some (m2, false)
      ∧ m2.Len = m1.Len ∧ m2.Keys = m1.Keys ∧ m2.Get k = some (v2, true) := by
  obtain ⟨m1, b1, i, hp, hw1, hk, _⟩ := Map.Put_post m k v1 hwf
  obtain ⟨j, hj, he⟩ := Map.Put_mem_eq m1 k v2 hw1 (List.getElem?_mem hk)
  obtain ⟨m2, b2, i2, hp2, hw2, hk2, hv2⟩ := Map.Put_post m1 k v2 hw1
  rw [he] at hp2
  cases hp2
  refine ⟨m1, b1, _, hp, he, rfl, rfl, ?_⟩
  rw [Map.Get_of_getElem _ k hw2 i2 hk2, hv2]
  rfl

/-- Witness for C3: overwriting the value of key 3. -/
theorem C3_put_overwrites_witness :
    (⟨[1, 3], [10, 30]⟩ : Map Nat Nat).WellFormed
      ∧ ∃ m1 b1 m2, (⟨[1, 3], [10, 30]⟩ : Map Nat Nat).Put 3 7 = some (m1, b1)
          ∧ m1.Put 3 8 = some (m2, false)
          ∧ m2.Len = m1.Len ∧ m2.Keys = m1.Keys ∧ m2.Get 3 = some (8, true) :=
  ⟨by decide, C3_put_overwrites ⟨[1, 3], [10, 30]⟩ 3 7 8 (by decide)⟩

/-- C4. Put of a new key: on a well-formed map, when `k` is not in `Keys()`,
`Put(k, v)` returns true, `Len()` grows by exactly 1, and the new `Keys()` is
the old one with `k` inserted at an index `i`: elements before `i` stay in
place, `k` is at `i`, elements from `i` on move right by one; the result is
strictly ascending and `i` is the only index with that property. Conversely
`Put` returns true only if `k` was not already a key. -/
theorem C4_put_new_key (m : Map K V) (k : K) (v : V) (hwf : m.WellFormed) :
    (k ∉ m.Keys → ∃ (m1 : Map K V) (i : Nat), m.Put k v = some (m1, true)
        ∧ m1.Len = m.Len + 1 ∧ i ≤ m.Len
        ∧ m1.Keys = m.Keys.take i ++ k :: m.Keys.drop i
        ∧ (∀ p, p < i → m1.Keys[p]? = m.Keys[p]?)
        ∧ m1.Keys[i]? = some k
        ∧ (∀ p, i ≤ p → m1.Keys[p + 1]? = m.Keys[p]?)
        ∧ StrictAsc m1.Keys
        ∧ ∀ j, j ≤ m.Len → StrictAsc (m.Keys.take j ++ k :: m.Keys.drop j) → j = i)
    ∧ (∀ m1 : Map K V, m.Put k v = some (m1, true) → k ∉ m.Keys) := by
  constructor
  · intro hk
    obtain ⟨i, hi, he, hs⟩ := Map.Put_not_mem_eq m k v hwf hk
    refine ⟨_, i, he, ?_, hi, rfl, ?_, ?_, ?_, ?_, ?_⟩
    · simp only [Map.Len, List.length_append, List.length_take, List.length_cons,
        List.length_drop]
      omega
    · intro p hp
      exact getElem?_insert_lt m.keys k i p hi hp
    · exact getElem?_insert_self m.keys k i hi
    · intro p hp
      exact getElem?_insert_ge m.keys k i p hi hp
    · exact (strictAsc_iff_pairwise _).mpr hs
    · intro j hj hsj
      exact insert_index_unique m.keys k i j hi hj hs ((strictAsc_iff_pairwise _).mp hsj)
  · intro m1 hp hk
    obtain ⟨i, _, he⟩ := Map.Put_mem_eq m k v hwf hk
    rw [he] at hp
    cases hp

/-- Witness for C4: key 2 is new to the map with keys 1 and 3 and goes between them;
and `Put` returning true there means 2 was not a key. -/
theorem C4_put_new_key_witness :
    (⟨[1, 3], [10, 30]⟩ : Map Nat Nat).WellFormed
    ∧ 2 ∉ (⟨[1, 3], [10, 30]⟩ : Map Nat Nat).Keys
    ∧ (∃ (m1 : Map Nat Nat) (i : Nat),
          (⟨[1, 3], [10, 30]⟩ : Map Nat Nat).Put 2 20 = some (m1, true)
        ∧ m1.Len = (⟨[1, 3], [10, 30]⟩ : Map Nat Nat).Len + 1
        ∧ i ≤ (⟨[1, 3], [10, 30]⟩ : Map Nat Nat).Len
        ∧ m1.Keys = (⟨[1, 3], [10, 30]⟩ : Map Nat Nat).Keys.take i
            ++ 2 :: (⟨[1, 3], [10, 30]⟩ : Map Nat Nat).Keys.drop i
        ∧ (∀ p, p < i → m1.Keys[p]? = (⟨[1, 3], [10, 30]⟩ : Map Nat Nat).Keys[p]?)
        ∧ m1.Keys[i]? = some 2
        ∧ (∀ p, i ≤ p → m1.Keys[p + 1]? = (⟨[1, 3], [10, 30]⟩ : Map Nat Nat).Keys[p]?)
        ∧ StrictAsc m1.Keys
        ∧ ∀ j, j ≤ (⟨[1, 3], [10, 30]⟩ : Map Nat Nat).Len →
            StrictAsc ((⟨[1, 3], [10, 30]⟩ : Map Nat Nat).Keys.take j
              ++ 2 :: (⟨[1, 3], [10, 30]⟩ : Map Nat Nat).Keys.drop j) → j = i)
    ∧ (⟨[1, 3], [10, 30]⟩ : Map Nat Nat).Put 2 20 = some (⟨[1, 2, 3], [10, 20, 30]⟩, true) :=
  ⟨by decide,
    (C4_put_new_key ⟨[1, 3], [10, 30]⟩ 2 20 (by decide)).2 ⟨[1, 2, 3], [10, 20, 30]⟩ (by decide),
    (C4_put_new_key ⟨[1, 3], [10, 30]⟩ 2 20 (by decide)).1 (by decide),
    by decide⟩

/-- C5. Del on an absent key is a no-op: on a well-formed map, when `k` is not
in `Keys()`, `Del(k)` returns false and the map (keys, values, hence `Len()`) is
what it was before the call. -/
theorem C5_del_absent_noop (m : Map K V) (k : K) (hwf : m.WellFormed) (hk : k ∉ m.Keys) :
    m.Del k = some (m, false) :=
  Map.Del_not_found m k (Map.not_found_of_not_mem m k hwf hk)

/-- Witness for C5: deleting key 2 from a map with keys 1 and 3. -/
theorem C5_del_absent_noop_witness :
    (⟨[1, 3], [10, 30]⟩ : Map Nat Nat).WellFormed
      ∧ 2 ∉ (⟨[1, 3], [10, 30]⟩ : Map Nat Nat).Keys
      ∧ (⟨[1, 3], [10, 30]⟩ : Map Nat Nat).Del 2 = some (⟨[1, 3], [10, 30]⟩, false) :=
  ⟨by decide, by decide, C5_del_absent_noop ⟨[1, 3], [10, 30]⟩ 2 (by decide) (by decide)⟩

/-- C6. Del on a present key: on a well-formed map, when `k` is in `Keys()`,
`Del(k)` returns true, afterwards `Contains(k)` is false and `Len()` is exactly
one less than before. -/
theorem C6_del_present (m : Map K V) (k : K) (hwf : m.WellFormed) (hk : k ∈ m.Keys) :
    ∃ m1 : Map K V, m.Del k = some (m1, true) ∧ m1.Contains k = false
      ∧ m1.Len + 1 = m.Len := by
  obtain ⟨i, hi, he⟩ := Map.Del_mem_eq m k hwf hk
  obtain ⟨hil, _⟩ := List.getElem?_eq_some.mp hi
  obtain ⟨m1, b, hd, hw1⟩ := Map.Del_wellFormed m k hwf
  rw [he] at hd
  cases hd
  refine ⟨_, he, ?_, ?_⟩
  · cases hc : Map.Contains ({ keys := m.keys.eraseIdx i, vals := m.vals.eraseIdx i } : Map K V) k
      with
    | false => rfl
    | true =>
      have hmem := (Map.Contains_iff_mem _ k hw1).mp hc
      obtain ⟨j, hne, hj⟩ := List.mem_eraseIdx_iff_getElem?.mp hmem
      exact absurd (index_unique m.keys k ((Map.wellFormed_iff m).mp hwf).1 j i hj hi) hne
  · exact List.length_eraseIdx_add_one hil

/-- Witness for C6: deleting key 3 from a map with keys 1 and 3. -/
theorem C6_del_present_witness :
    (⟨[1, 3], [10, 30]⟩ : Map Nat Nat).WellFormed
      ∧ 3 ∈ (⟨[1, 3], [10, 30]⟩ : Map Nat Nat).Keys
      ∧ ∃ m1 : Map Nat Nat, (⟨[1, 3], [10, 30]⟩ : Map Nat Nat).Del 3 = some (m1, true)
          ∧ m1.Contains 3 = false ∧ m1.Len + 1 = (⟨[1, 3], [10, 30]⟩ : Map Nat Nat).Len :=
  ⟨by decide, by decide, C6_del_present ⟨[1, 3], [10, 30]⟩ 3 (by decide) (by decide)⟩

/-- C7. Keys and values stay aligned: every finite sequence of `Put` and `Del`
calls on `NewMap()` runs without panic and ends in a map whose `Keys()` and
`Vals()` have the same length and in which, for every index `i < Len()`,
`Get(Keys()[i])` returns `(Vals()[i], true)`. -/
theorem C7_keys_vals_aligned [Inhabited V] (ops : List (MapOp K V)) :
    ∃ m : Map K V, (NewMap : Map K V).run ops = some m
      ∧ m.Keys.length = m.Vals.length
      ∧ ∀ i, i < m.Len → ∃ k v, m.Keys[i]? = some k ∧ m.Vals[i]? = some v
          ∧ m.Get k = some (v, true) := by
  obtain ⟨m, h, hw⟩ := Map.run_wellFormed ops NewMap NewMap_wellFormed
  refine ⟨m, h, hw.2, ?_⟩
  intro i hi
  have hi2 : i < m.vals.length := by have := hw.2; simp only [Map.Len] at hi; omega
  refine ⟨m.keys[i], m.vals[i], List.getElem?_eq_getElem hi, List.getElem?_eq_getElem hi2, ?_⟩
  rw [Map.Get_of_getElem m _ hw i (List.getElem?_eq_getElem hi), List.getElem?_eq_getElem hi2]
  rfl

end MapClaims

/-! ## The set contract -/

section SetClaims

variable {T : Type} [LinearOrder T]

/-- C8. Set construction normalises: for every list of items, in any order and
with any duplicates, `NewSet(items...).Values()` is strictly ascending and holds
exactly the elements that occur in `items`; and `NewSet(4, 3, 4, 4).Values()`
is `[3, 4]`. -/
theorem C8_newset_normalises (items : List T) :
    StrictAsc (NewSet items).Values
      ∧ (∀ x, x ∈ (NewSet items).Values ↔ x ∈ items)
      ∧ (NewSet ([4, 3, 4, 4] : List Int)).Values = [3, 4] :=
  ⟨(strictAsc_iff_pairwise _).mpr (pairwise_toSliceSet items),
    fun x => mem_toSliceSet items x, by decide⟩

/-- C9. Set ordering invariant: for every initial item list, every finite
sequence of `Put` and `Del` calls on `NewSet(items...)` runs without panic, and
after every call (after each prefix `ops.take n`) `Values()` is strictly
ascending, `values[i] < values[i+1]`, and holds no element twice. -/
theorem C9_set_values_strictly_ascending (items : List T) (ops : List (SetOp T)) (n : Nat) :
    ∃ s : Set T, (NewSet items).run (ops.take n) = some s
      ∧ StrictAsc s.Values ∧ s.Values.Nodup := by
  obtain ⟨s, h, hw⟩ := Set.run_pairwise (ops.take n) (NewSet items) (pairwise_toSliceSet items)
  exact ⟨s, h, (strictAsc_iff_pairwise _).mpr hw, hw.nodup⟩

/-- C10. Set Put: on a strictly ascending set, if `x` is already in `Values()`
then `Put(x)` returns false and the set is unchanged; otherwise `Put(x)` returns
true, `Len()` grows by exactly 1, and afterwards `Contains(y)` holds exactly for
`y = x` and for the `y` contained before. -/
theorem C10_set_put (s : Set T) (x : T) (hs : StrictAsc s.Values) :
    (x ∈ s.Values → s.Put x = some (s, false))
    ∧ (x ∉ s.Values → ∃ s1 : Set T, s.Put x = some (s1, true)
        ∧ s1.Len = s.Len + 1
        ∧ ∀ y, s1.Contains y = true ↔ (y = x ∨ s.Contains y = true)) := by
  have hp : s.vals.Pairwise (fun a b => a < b) := (strictAsc_iff_pairwise _).mp hs
  constructor
  · intro hx
    exact Set.Put_present s x ((BinarySearch_mem s.vals x hp).mpr hx)
  · intro hx
    have hf : (slices.BinarySearch s.vals x).2 = false := by
      cases hf : (slices.BinarySearch s.vals x).2 with
      | true => exact absurd ((BinarySearch_mem s.vals x hp).mp hf) hx
      | false => rfl
    have hle := BinarySearch_le s.vals x
    refine ⟨_, Set.Put_absent s x hf, ?_, ?_⟩
    · simp only [Set.Len, List.length_append, List.length_take, List.length_cons,
        List.length_drop]
      omega
    · intro y
      simp only [Set.Contains, Set.keySearch]
      rw [BinarySearch_mem _ y (pairwise_insert s.vals x hp hx), BinarySearch_mem _ y hp]
      rw [List.mem_append, List.mem_cons]
      have hsplit : y ∈ s.vals ↔ y ∈ s.vals.take (slices.BinarySearch s.vals x).1
          ∨ y ∈ s.vals.drop (slices.BinarySearch s.vals x).1 := by
        rw [← List.mem_append, List.take_append_drop]
      rw [hsplit]
      tauto

/-- Witness for C10: on the set with values 1 and 3, putting 3 (present) and
putting 2 (absent). -/
theorem C10_set_put_witness :
    StrictAsc (⟨[1, 3], false⟩ : Set Nat).Values
    ∧ 3 ∈ (⟨[1, 3], false⟩ : Set Nat).Values
    ∧ (⟨[1, 3], false⟩ : Set Nat).Put 3 = some (⟨[1, 3], false⟩, false)
    ∧ 2 ∉ (⟨[1, 3], false⟩ : Set Nat).Values
    ∧ ∃ s1 : Set Nat, (⟨[1, 3], false⟩ : Set Nat).Put 2 = some (s1, true)
        ∧ s1.Len = (⟨[1, 3], false⟩ : Set Nat).Len + 1
        ∧ ∀ y, s1.Contains y = true ↔ (y = 2 ∨ (⟨[1, 3], false⟩ : Set Nat).Contains y = true) :=
  ⟨by decide, by decide, (C10_set_put ⟨[1, 3], false⟩ 3 (by decide)).1 (by decide),
    by decide, (C10_set_put ⟨[1, 3], false⟩ 2 (by decide)).2 (by decide)⟩

end SetClaims

/-! ## The search primitive -/

section SearchClaims

variable {K V T : Type} [LinearOrder K] [LinearOrder T]

/-- The binary search meets the search contract on every strictly ascending slice. -/
theorem BinarySearch_contract {E : Type} [LinearOrder E] (x : List E) (t : E)
    (hs : x.Pairwise (fun a b => a < b)) :
    SearchContract x t (slices.BinarySearch x t) := by
  obtain ⟨hlo, hhi⟩ := BinarySearch_spec x t hs
  refine ⟨BinarySearch_le x t, BinarySearch_mem x t hs, (BinarySearch_found x t).mp, ?_, ?_⟩
  · intro p a hp hlt
    obtain ⟨hpl, rfl⟩ := List.getElem?_eq_some.mp hp
    exact hlo p hpl hlt
  · intro p a hp hle
    obtain ⟨hpl, rfl⟩ := List.getElem?_eq_some.mp hp
    exact hhi p hpl hle

/-- C11. Search primitive: on a strictly ascending key slice (of a map) or value
slice (of a set), `keySearch` returns `(i, found)` with `i ≤ len`, `found` true
exactly when the target occurs, the target at index `i` when found, all elements
before `i` below the target and all elements from `i` on at least the target;
when the target is absent, inserting it at `i` keeps the slice strictly
ascending; and `Contains` is true exactly when an equal element exists. -/
theorem C11_keySearch_contract (m : Map K V) (s : Set T) (k : K) (x : T)
    (hm : StrictAsc m.Keys) (hs : StrictAsc s.Values) :
    (SearchContract m.Keys k (m.keySearch k)
      ∧ (k ∉ m.Keys →
          StrictAsc (m.Keys.take (m.keySearch k).1 ++ k :: m.Keys.drop (m.keySearch k).1))
      ∧ (m.Contains k = true ↔ k ∈ m.Keys))
    ∧ (SearchContract s.Values x (s.keySearch x)
      ∧ (x ∉ s.Values →
          StrictAsc (s.Values.take (s.keySearch x).1 ++ x :: s.Values.drop (s.keySearch x).1))
      ∧ (s.Contains x = true ↔ x ∈ s.Values)) := by
  have pm : m.keys.Pairwise (fun a b => a < b) := (strictAsc_iff_pairwise _).mp hm
  have ps : s.vals.Pairwise (fun a b => a < b) := (strictAsc_iff_pairwise _).mp hs
  refine ⟨⟨BinarySearch_contract m.keys k pm, ?_, BinarySearch_mem m.keys k pm⟩,
    ⟨BinarySearch_contract s.vals x ps, ?_, BinarySearch_mem s.vals x ps⟩⟩
  · intro hk
    exact (strictAsc_iff_pairwise _).mpr (pairwise_insert m.keys k pm hk)
  · intro hx
    exact (strictAsc_iff_pairwise _).mpr (pairwise_insert s.vals x ps hx)

/-- Witness for C11: searching 2 (absent) in the keys 1, 3 of a map and 3
(present) in the values 1, 3 of a set. -/
theorem C11_keySearch_contract_witness :
    StrictAsc (⟨[1, 3], [10, 30]⟩ : Map Nat Nat).Keys
    ∧ StrictAsc (⟨[1, 3], false⟩ : Set Nat).Values
    ∧ (⟨[1, 3], [10, 30]⟩ : Map Nat Nat).keySearch 2 = (1, false)
    ∧ (⟨[1, 3], false⟩ : Set Nat).keySearch 3 = (1, true)
    ∧ SearchContract (⟨[1, 3], [10, 30]⟩ : Map Nat Nat).Keys 2
        ((⟨[1, 3], [10, 30]⟩ : Map Nat Nat).keySearch 2)
    ∧ SearchContract (⟨[1, 3], false⟩ : Set Nat).Values 3
        ((⟨[1, 3], false⟩ : Set Nat).keySearch 3) :=
  ⟨by decide, by decide, by decide, by decide,
    (C11_keySearch_contract (⟨[1, 3], [10, 30]⟩ : Map Nat Nat) (⟨[1, 3], false⟩ : Set Nat) 2 3
      (by decide) (by decide)).1.1,
    (C11_keySearch_contract (⟨[1, 3], [10, 30]⟩ : Map Nat Nat) (⟨[1, 3], false⟩ : Set Nat) 2 3
      (by decide) (by decide)).2.1⟩

end SearchClaims

/-! ## Iteration -/

section ItemsClaims

variable {K V T : Type}

theorem itemsFrom_collect (vals : List V) (ks : List K) :
    ∀ (idx : Nat) (out : List (K × ValRef V)), idx + ks.length ≤ vals.length →
      Map.itemsFrom vals Map.collect ks idx out
        = some (out ++ refsFrom ks (vals.drop idx) idx) := by
  induction ks with
  | nil => intro idx out _; simp [Map.itemsFrom, refsFrom]
  | cons k ks ih =>
    intro idx out h
    have hlt : idx < vals.length := by simp at h; omega
    rw [List.drop_eq_getElem_cons hlt]
    simp only [Map.itemsFrom, List.getElem?_eq_getElem hlt, Map.collect, refsFrom]
    rw [ih (idx + 1) _ (by simp at h ⊢; omega)]
    simp

theorem length_refsFrom (ks : List K) :
    ∀ (vs : List V) (idx : Nat), ks.length = vs.length → (refsFrom ks vs idx).length = ks.length := by
  induction ks with
  | nil => intro vs idx _; simp [refsFrom]
  | cons k ks ih =>
    intro vs idx h
    cases vs with
    | nil => simp at h
    | cons v vs => simp [refsFrom, ih vs (idx + 1) (by simpa using h)]

theorem map_fst_refsFrom (ks : List K) :
    ∀ (vs : List V) (idx : Nat), ks.length = vs.length →
      (refsFrom ks vs idx).map Prod.fst = ks := by
  induction ks with
  | nil => intro vs idx _; simp [refsFrom]
  | cons k ks ih =>
    intro vs idx h
    cases vs with
    | nil => simp at h
    | cons v vs => simp [refsFrom, ih vs (idx + 1) (by simpa using h)]

theorem getElem?_refsFrom (ks : List K) :
    ∀ (vs : List V) (idx i : Nat) (k : K) (v : V), ks[i]? = some k → vs[i]? = some v →
      (refsFrom ks vs idx)[i]? = some (k, ⟨idx + i, v⟩) := by
  induction ks with
  | nil => intro vs idx i k v hk _; simp at hk
  | cons k0 ks ih =>
    intro vs idx i k v hk hv
    cases vs with
    | nil => simp at hv
    | cons v0 vs =>
      cases i with
      | zero =>
        simp only [List.getElem?_cons_zero, Option.some.injEq] at hk hv
        subst hk hv
        simp [refsFrom]
      | succ i =>
        simp only [List.getElem?_cons_succ] at hk hv
        simp only [refsFrom, List.getElem?_cons_succ]
        rw [ih vs (idx + 1) i k v hk hv]
        congr 3
        omega

theorem Set.itemsLoop_collect (xs : List T) :
    ∀ out : List T, Set.itemsLoop Set.collect xs out = some (out ++ xs) := by
  induction xs with
  | nil => intro out; simp [Set.itemsLoop]
  | cons x xs ih =>
    intro out
    simp only [Set.itemsLoop, Set.collect]
    rw [ih]
    simp

/-- C18. Iteration order: on a map with as many values as keys, running `Items()`
to completion yields exactly `Len()` pairs, whose keys in the order yielded are
`Keys()` and whose `i`-th handle points to slot `i` and holds `Vals()[i]`; on a
set, `Items()` yields exactly `Values()`; when the keys or values are strictly
ascending so is the order yielded; and a second call of `Items()` yields the
same sequence again. -/
theorem C18_items_order [LT K] [LT T] (m : Map K V) (s : Set T)
    (hlen : m.Keys.length = m.Vals.length) :
    (∃ out : List (K × ValRef V), m.Items Map.collect [] = some out
        ∧ out.length = m.Len
        ∧ out.map Prod.fst = m.Keys
        ∧ (∀ i, i < m.Len → ∃ k v, m.Keys[i]? = some k ∧ m.Vals[i]? = some v
            ∧ out[i]? = some (k, ⟨i, v⟩))
        ∧ (StrictAsc m.Keys → StrictAsc (out.map Prod.fst))
        ∧ m.Items Map.collect out = some (out ++ out))
    ∧ (s.Items Set.collect [] = some s.Values
        ∧ (StrictAsc s.Values → ∀ out, s.Items Set.collect [] = some out → StrictAsc out)
        ∧ s.Items Set.collect s.Values = some (s.Values ++ s.Values)) := by
  have hl : m.keys.length = m.vals.length := hlen
  have h0 : ∀ out, m.Items Map.collect out = some (out ++ refsFrom m.keys m.vals 0) := by
    intro out
    have := itemsFrom_collect m.vals m.keys 0 out (by omega)
    simpa [Map.Items] using this
  constructor
  · refine ⟨refsFrom m.keys m.vals 0, by simpa using h0 [], length_refsFrom _ _ _ hl,
      map_fst_refsFrom _ _ _ hl, ?_, ?_, h0 _⟩
    · intro i hi
      have hi1 : i < m.keys.length := hi
      have hi2 : i < m.vals.length := by omega
      refine ⟨m.keys[i], m.vals[i], List.getElem?_eq_getElem hi1,
        List.getElem?_eq_getElem hi2, ?_⟩
      have := getElem?_refsFrom m.keys m.vals 0 i _ _ (List.getElem?_eq_getElem hi1)
        (List.getElem?_eq_getElem hi2)
      simpa using this
    · intro h
      rw [map_fst_refsFrom _ _ _ hl]
      exact h
  · refine ⟨by simpa [Set.Items, Set.Values] using Set.itemsLoop_collect s.vals [], ?_,
      by simpa [Set.Items, Set.Values] using Set.itemsLoop_collect s.vals s.vals⟩
    intro h out hout
    have e : s.Items Set.collect [] = some s.Values := by
      simpa [Set.Items, Set.Values] using Set.itemsLoop_collect s.vals []
    rw [e] at hout
    cases hout
    exact h

/-- Witness for C18: the map with keys 1, 3 and values 10, 30. -/
theorem C18_items_order_witness :
    (⟨[1, 3], [10, 30]⟩ : Map Nat Nat).Keys.length = (⟨[1, 3], [10, 30]⟩ : Map Nat Nat).Vals.length
    ∧ (⟨[1, 3], [10, 30]⟩ : Map Nat Nat).Items Map.collect []
        = some [(1, ⟨0, 10⟩), (3, ⟨1, 30⟩)]
    ∧ ∃ out : List (Nat × ValRef Nat),
        (⟨[1, 3], [10, 30]⟩ : Map Nat Nat).Items Map.collect [] = some out
        ∧ out.length = (⟨[1, 3], [10, 30]⟩ : Map Nat Nat).Len
        ∧ out.map Prod.fst = (⟨[1, 3], [10, 30]⟩ : Map Nat Nat).Keys
        ∧ (∀ i, i < (⟨[1, 3], [10, 30]⟩ : Map Nat Nat).Len →
            ∃ k v, (⟨[1, 3], [10, 30]⟩ : Map Nat Nat).Keys[i]? = some k
              ∧ (⟨[1, 3], [10, 30]⟩ : Map Nat Nat).Vals[i]? = some v
              ∧ out[i]? = some (k, ⟨i, v⟩))
        ∧ (StrictAsc (⟨[1, 3], [10, 30]⟩ : Map Nat Nat).Keys → StrictAsc (out.map Prod.fst))
        ∧ (⟨[1, 3], [10, 30]⟩ : Map Nat Nat).Items Map.collect out = some (out ++ out) :=
  ⟨by decide, by decide,
    (C18_items_order (⟨[1, 3], [10, 30]⟩ : Map Nat Nat) (⟨[1, 3], false⟩ : Set Nat)
      (by decide)).1⟩

end ItemsClaims

/-! ## Encoding of a map -/

section MarshalLemmas

variable {K V ε : Type}

theorem intercalate_cons_cons (sep a b : Bytes) (rest : List Bytes) :
    List.intercalate sep (a :: b :: rest) = a ++ sep ++ List.intercalate sep (b :: rest) := by
  simp [List.intercalate, List.intersperse]

/-- One pass of the loop body when both encodings succeed: the field is written,
followed by a comma unless it is the last one. -/
theorem Map.marshalBody_ok (encK : K → Except ε Bytes) (encV : V → Except ε Bytes)
    (count : Nat) (st : Map.MarshalLoop ε) (k : K) (v : ValRef V) (kt vt : Bytes)
    (hk : encK k = .ok kt) (hne : kt ≠ []) (hv : encV v.val = .ok vt) :
    Map.marshalBody encK encV count st k v
      = some ({ buf := st.buf ++ specField kt vt ++ (if st.i + 1 < count then [','] else []),
                i := st.i + 1, ret := none }, true) := by
  cases kt with
  | nil => exact absurd rfl hne
  | cons c cs =>
    unfold Map.marshalBody specField
    simp only [hk, hv, List.getElem?_cons_zero, Option.some.injEq]
    by_cases hc : c = '"'
    · subst hc
      by_cases hi : st.i + 1 < count <;> simp [hi]
    · by_cases hi : st.i + 1 < count <;> simp [hc, hi]

/-- The loop of `MarshalJSON` when every encoding succeeds: the buffer receives
the fields separated by commas. -/
theorem Map.itemsFrom_marshal_ok (encK : K → Except ε Bytes) (encV : V → Except ε Bytes)
    (kt : K → Bytes) (vt : V → Bytes) (count : Nat) (vals : List V) (ks : List K) :
    ∀ (idx : Nat) (st : Map.MarshalLoop ε), st.ret = none → st.i = idx →
      idx + ks.length = count → count ≤ vals.length →
      (∀ k ∈ ks, encK k = .ok (kt k) ∧ kt k ≠ []) →
      (∀ v ∈ vals, encV v = .ok (vt v)) →
      Map.itemsFrom vals (Map.marshalBody encK encV count) ks idx st
        = some { buf := st.buf ++ List.intercalate [',']
                    (List.zipWith (fun k v => specField (kt k) (vt v)) ks (vals.drop idx)),
                 i := count, ret := none } := by
  induction ks with
  | nil =>
    intro idx st hr hi hc _ _ _
    simp only [List.length_nil, Nat.add_zero] at hc
    subst hi
    subst hc
    cases st
    simp only at hr
    subst hr
    simp [Map.itemsFrom, List.intercalate]
  | cons k ks ih =>
    intro idx st hr hi hc hle hk hv
    have hlt : idx < vals.length := by simp at hc; omega
    have hkk := hk k (List.mem_cons_self _ _)
    have hvv := hv vals[idx] (List.getElem_mem _)
    rw [List.drop_eq_getElem_cons hlt]
    simp only [Map.itemsFrom, List.getElem?_eq_getElem hlt]
    rw [Map.marshalBody_ok encK encV count st k ⟨idx, vals[idx]⟩ _ _ hkk.1 hkk.2 hvv]
    simp only
    rw [ih (idx + 1) _ rfl (by simp [hi]) (by simp at hc ⊢; omega) hle
      (fun k1 h1 => hk k1 (List.mem_cons_of_mem _ h1)) hv]
    congr 1
    simp only [List.zipWith_cons_cons, Map.MarshalLoop.mk.injEq, and_true]
    cases ks with
    | nil =>
      have : ¬ st.i + 1 < count := by simp at hc; omega
      simp [this, List.intercalate]
    | cons k2 ks2 =>
      have h2 : idx + 1 < vals.length := by simp at hc; omega
      have : st.i + 1 < count := by simp at hc; omega
      rw [List.drop_eq_getElem_cons h2]
      simp only [this, if_true, List.zipWith_cons_cons]
      rw [intercalate_cons_cons]
      simp

/-- The encoding of a map with as many values as keys, when every key and value
encoding succeeds: the object of the specification. -/
theorem Map.MarshalJSON_ok (encK : K → Except ε Bytes) (encV : V → Except ε Bytes)
    (kt : K → Bytes) (vt : V → Bytes) (m : Map K V) (hlen : m.keys.length = m.vals.length)
    (hk : ∀ k ∈ m.keys, encK k = .ok (kt k) ∧ kt k ≠ [])
    (hv : ∀ v ∈ m.vals, encV v = .ok (vt v)) :
    m.MarshalJSON encK encV = some (some (specObject (specFields kt vt m)), none) := by
  unfold Map.MarshalJSON Map.Items
  rw [Map.itemsFrom_marshal_ok encK encV kt vt m.Len m.vals m.keys 0 _ rfl rfl
    (by simp [Map.Len]) (by simp [Map.Len, hlen]) hk hv]
  simp [specObject, specFields]

/-- The two ways the loop body ends when a successful key text is never empty:
it goes on without an error, or it stops with the error of the key or of the
value. -/
theorem Map.marshalBody_cases (encK : K → Except ε Bytes) (encV : V → Except ε Bytes)
    (count : Nat) (st : Map.MarshalLoop ε) (k : K) (v : ValRef V)
    (hne : ∀ t, encK k = .ok t → t ≠ []) :
    (∃ st1, Map.marshalBody encK encV count st k v = some (st1, true) ∧ st1.ret = none
        ∧ (∃ t, encK k = .ok t) ∧ (∃ t, encV v.val = .ok t))
    ∨ (∃ st1 err, Map.marshalBody encK encV count st k v = some (st1, false)
        ∧ st1.ret = some err
        ∧ (encK k = .error err ∨ ((∃ t, encK k = .ok t) ∧ encV v.val = .error err))) := by
  unfold Map.marshalBody
  cases hk : encK k with
  | error err => exact Or.inr ⟨_, err, rfl, rfl, Or.inl rfl⟩
  | ok kt =>
    cases kt with
    | nil => exact absurd rfl (hne [] hk)
    | cons c cs =>
      simp only [List.getElem?_cons_zero]
      cases hv : encV v.val with
      | error err => exact Or.inr ⟨_, err, rfl, rfl, Or.inr ⟨⟨_, rfl⟩, rfl⟩⟩
      | ok vt => exact Or.inl ⟨_, rfl, rfl, ⟨_, rfl⟩, ⟨_, rfl⟩⟩

/-- The loop of `MarshalJSON` does not panic when there is a value for every key
and no successful key text is empty; and an error it ends with is the error of
a key or of a value. -/
theorem Map.itemsFrom_marshal_total (encK : K → Except ε Bytes) (encV : V → Except ε Bytes)
    (count : Nat) (vals : List V) (ks : List K) :
    ∀ (idx : Nat) (st : Map.MarshalLoop ε), st.ret = none → idx + ks.length ≤ vals.length →
      (∀ k ∈ ks, ∀ t, encK k = .ok t → t ≠ []) →
      ∃ st1, Map.itemsFrom vals (Map.marshalBody encK encV count) ks idx st = some st1
        ∧ ∀ err, st1.ret = some err →
            (∃ k ∈ ks, encK k = .error err) ∨ (∃ v ∈ vals, encV v = .error err) := by
  induction ks with
  | nil =>
    intro idx st hr _ _
    exact ⟨st, rfl, fun err h => by rw [hr] at h; cases h⟩
  | cons k ks ih =>
    intro idx st hr hle hne
    have hlt : idx < vals.length := by simp at hle; omega
    simp only [Map.itemsFrom, List.getElem?_eq_getElem hlt]
    rcases Map.marshalBody_cases encK encV count st k ⟨idx, vals[idx]⟩
      (hne k (List.mem_cons_self _ _)) with ⟨st1, hb, hr1, _, _⟩ | ⟨st1, err, hb, hr1, hc⟩
    · rw [hb]
      obtain ⟨st2, h2, h3⟩ := ih (idx + 1) st1 hr1 (by simp at hle ⊢; omega)
        (fun k1 h1 => hne k1 (List.mem_cons_of_mem _ h1))
      refine ⟨st2, h2, fun e he => ?_⟩
      rcases h3 e he with ⟨k1, hk1, hk2⟩ | h
      · exact Or.inl ⟨k1, List.mem_cons_of_mem _ hk1, hk2⟩
      · exact Or.inr h
    · rw [hb]
      refine ⟨st1, rfl, fun e he => ?_⟩
      rw [hr1] at he
      cases he
      rcases hc with hc | ⟨_, hc⟩
      · exact Or.inl ⟨k, List.mem_cons_self _ _, hc⟩
      · exact Or.inr ⟨vals[idx], List.getElem_mem _, hc⟩

/-- The loop of `MarshalJSON` stops at the first pair whose key or value fails to
encode, with that error. -/
theorem Map.itemsFrom_marshal_fail (encK : K → Except ε Bytes) (encV : V → Except ε Bytes)
    (count : Nat) (vals : List V) (err : ε) (ks : List K) :
    ∀ (idx j : Nat) (st : Map.MarshalLoop ε), idx + ks.length ≤ vals.length →
      (∀ k ∈ ks, ∀ t, encK k = .ok t → t ≠ []) →
      (∀ p, p < j → ∃ k v, ks[p]? = some k ∧ vals[idx + p]? = some v
          ∧ (∃ t, encK k = .ok t) ∧ (∃ t, encV v = .ok t)) →
      (∃ k v, ks[j]? = some k ∧ vals[idx + j]? = some v
          ∧ (encK k = .error err ∨ ((∃ t, encK k = .ok t) ∧ encV v = .error err))) →
      ∃ st1, Map.itemsFrom vals (Map.marshalBody encK encV count) ks idx st = some st1
        ∧ st1.ret = some err := by
  induction ks with
  | nil =>
    intro idx j st _ _ _ hj
    obtain ⟨k, v, hk, _⟩ := hj
    simp at hk
  | cons k ks ih =>
    intro idx j st hle hne hpre hj
    have hlt : idx < vals.length := by simp at hle; omega
    simp only [Map.itemsFrom, List.getElem?_eq_getElem hlt]
    rcases Map.marshalBody_cases encK encV count st k ⟨idx, vals[idx]⟩
      (hne k (List.mem_cons_self _ _)) with ⟨st1, hb, hr1, hok1, hok2⟩ | ⟨st1, e1, hb, hr1, hc⟩
    · rw [hb]
      cases j with
      | zero =>
        obtain ⟨k0, v0, hk0, hv0, hf⟩ := hj
        simp only [List.getElem?_cons_zero, Option.some.injEq, Nat.add_zero,
          List.getElem?_eq_getElem hlt] at hk0 hv0
        subst hk0 hv0
        obtain ⟨t1, ht1⟩ := hok1
        obtain ⟨t2, ht2⟩ := hok2
        simp only at ht2
        rcases hf with hf | ⟨_, hf⟩
        · rw [ht1] at hf; cases hf
        · rw [ht2] at hf; cases hf
      | succ j =>
        refine ih (idx + 1) j st1 (by simp at hle ⊢; omega)
          (fun k1 h1 => hne k1 (List.mem_cons_of_mem _ h1)) ?_ ?_
        · intro p hp
          obtain ⟨k1, v1, hk1, hv1, h⟩ := hpre (p + 1) (by omega)
          refine ⟨k1, v1, by simpa using hk1, ?_, h⟩
          rw [← hv1]; congr 1; omega
        · obtain ⟨k1, v1, hk1, hv1, h⟩ := hj
          refine ⟨k1, v1, by simpa using hk1, ?_, h⟩
          rw [← hv1]; congr 1; omega
    · rw [hb]
      refine ⟨st1, rfl, ?_⟩
      rw [hr1]
      cases j with
      | zero =>
        obtain ⟨k0, v0, hk0, hv0, hf⟩ := hj
        simp only [List.getElem?_cons_zero, Option.some.injEq, Nat.add_zero,
          List.getElem?_eq_getElem hlt] at hk0 hv0
        subst hk0 hv0
        simp only at hc
        rcases hf with hf | ⟨⟨t, ht⟩, hf⟩
        · rcases hc with hc | ⟨⟨t, ht⟩, _⟩
          · rw [hf] at hc; cases hc; rfl
          · rw [hf] at ht; cases ht
        · rcases hc with hc | ⟨_, hc⟩
          · rw [ht] at hc; cases hc
          · rw [hf] at hc; cases hc; rfl
      | succ j =>
        obtain ⟨k0, v0, hk0, hv0, ⟨t1, ht1⟩, ⟨t2, ht2⟩⟩ := hpre 0 (by omega)
        simp only [List.getElem?_cons_zero, Option.some.injEq, Nat.add_zero,
          List.getElem?_eq_getElem hlt] at hk0 hv0
        subst hk0 hv0
        simp only at hc
        rcases hc with hc | ⟨_, hc⟩
        · rw [ht1] at hc; cases hc
        · rw [ht2] at hc; cases hc

/-- When the loop of `MarshalJSON` ends without an error, every key and every
value it went over has encoded. -/
theorem Map.itemsFrom_marshal_success (encK : K → Except ε Bytes) (encV : V → Except ε Bytes)
    (count : Nat) (vals : List V) (ks : List K) :
    ∀ (idx : Nat) (st st1 : Map.MarshalLoop ε), idx + ks.length ≤ vals.length →
      (∀ k ∈ ks, ∀ t, encK k = .ok t → t ≠ []) →
      Map.itemsFrom vals (Map.marshalBody encK encV count) ks idx st = some st1 →
      st1.ret = none →
      (∀ k ∈ ks, ∃ t, encK k = .ok t)
        ∧ (∀ p v, p < ks.length → vals[idx + p]? = some v → ∃ t, encV v = .ok t) := by
  induction ks with
  | nil =>
    intro idx st st1 _ _ _ _
    exact ⟨fun k hk => by simp at hk, fun p v hp => by simp at hp⟩
  | cons k ks ih =>
    intro idx st st1 hle hne hrun hr
    have hlt : idx < vals.length := by simp at hle; omega
    simp only [Map.itemsFrom, List.getElem?_eq_getElem hlt] at hrun
    rcases Map.marshalBody_cases encK encV count st k ⟨idx, vals[idx]⟩
      (hne k (List.mem_cons_self _ _)) with ⟨st2, hb, hr2, hok1, hok2⟩ | ⟨st2, e1, hb, hr2, _⟩
    · rw [hb] at hrun
      obtain ⟨h1, h2⟩ := ih (idx + 1) st2 st1 (by simp at hle ⊢; omega)
        (fun k1 hk1 => hne k1 (List.mem_cons_of_mem _ hk1)) hrun hr
      constructor
      · intro k1 hk1
        rcases List.mem_cons.mp hk1 with rfl | hk1
        · exact hok1
        · exact h1 k1 hk1
      · intro p v hp hv
        cases p with
        | zero =>
          simp only [Nat.add_zero, List.getElem?_eq_getElem hlt, Option.some.injEq] at hv
          subst hv
          exact hok2
        | succ p =>
          refine h2 p v (by simp at hp; omega) ?_
          rw [← hv]; congr 1; omega
    · rw [hb] at hrun
      simp only [Option.some.injEq] at hrun
      subst hrun
      rw [hr2] at hr
      cases hr

end MarshalLemmas

/-! ## Insertion order -/

section OrderLemmas

variable {K V : Type} [LinearOrder K]

/-- Inserting a key and its value at the same index inserts the pair into the
list of entries. -/
theorem zip_insert_perm {K V : Type} (ks : List K) (vs : List V) (k : K) (v : V) (i : Nat)
    (hlen : ks.length = vs.length) :
    ((ks.take i ++ k :: ks.drop i).zip (vs.take i ++ v :: vs.drop i)).Perm
      ((ks.zip vs) ++ [(k, v)]) := by
  rw [List.zip_append (by simp [hlen]), List.zip_cons_cons]
  refine List.perm_middle.trans ?_
  rw [← List.zip_append (by simp [hlen]), List.take_append_drop, List.take_append_drop]
  exact (List.perm_append_singleton _ _).symm

/-- Putting pairs with pairwise distinct new keys into a well-formed map adds
exactly those pairs to its entries. -/
theorem Map.run_putAll_entries (pairs : List (K × V)) :
    ∀ m0 : Map K V, m0.WellFormed → (pairs.map Prod.fst).Nodup →
      (∀ k ∈ pairs.map Prod.fst, k ∉ m0.keys) →
      ∃ m : Map K V, m0.run (putAll pairs) = some m ∧ m.WellFormed
        ∧ (m.keys.zip m.vals).Perm ((m0.keys.zip m0.vals) ++ pairs) := by
  induction pairs with
  | nil =>
    intro m0 hwf _ _
    exact ⟨m0, rfl, hwf, by simp⟩
  | cons p pairs ih =>
    intro m0 hwf hnd hnew
    obtain ⟨k, v⟩ := p
    simp only [List.map_cons, List.nodup_cons] at hnd
    have hk : k ∉ m0.keys := hnew k (by simp)
    obtain ⟨i, hi, he, hs⟩ := Map.Put_not_mem_eq m0 k v hwf hk
    have hw1 : Map.WellFormed (Map.mk (m0.keys.take i ++ k :: m0.keys.drop i)
        (m0.vals.take i ++ v :: m0.vals.drop i)) := by
      obtain ⟨m1, b, hp, hw⟩ := Map.Put_wellFormed m0 k v hwf
      rw [he] at hp; cases hp; exact hw
    obtain ⟨m, hrun, hwm, hperm⟩ := ih _ hw1 hnd.2 (by
      intro k1 hk1 hmem
      have hmem1 : k1 ∈ m0.keys.take i ++ k :: m0.keys.drop i := hmem
      rw [List.mem_append, List.mem_cons] at hmem1
      rcases hmem1 with h | rfl | h
      · exact hnew k1 (List.mem_cons_of_mem _ hk1) (List.mem_of_mem_take h)
      · exact hnd.1 hk1
      · exact hnew k1 (List.mem_cons_of_mem _ hk1) (List.mem_of_mem_drop h))
    refine ⟨m, ?_, hwm, ?_⟩
    · simp only [putAll, List.map_cons, Map.run, Map.step, he, Option.map_some', Option.some_bind]
      exact hrun
    · refine hperm.trans ?_
      have := zip_insert_perm m0.keys m0.vals k v i hwf.2
      refine (List.Perm.append_right pairs this).trans ?_
      simp

/-- A well-formed map is determined by its entries, whatever their order. -/
theorem Map.eq_of_entries_perm (m1 m2 : Map K V) (h1 : m1.WellFormed) (h2 : m2.WellFormed)
    (hp : (m1.keys.zip m1.vals).Perm (m2.keys.zip m2.vals)) : m1 = m2 := by
  have hs : ∀ m : Map K V, m.WellFormed →
      (m.keys.zip m.vals).Pairwise (fun a b => a.1 < b.1) := by
    intro m hm
    have hk := ((Map.wellFormed_iff m).mp hm).1
    have e : (m.keys.zip m.vals).map Prod.fst = m.keys :=
      List.map_fst_zip _ _ (by rw [hm.2])
    rw [← e, List.pairwise_map] at hk
    exact hk
  have anti : IsAntisymm (K × V) (fun a b => a.1 < b.1) :=
    ⟨fun a b hab hba => absurd (lt_trans hab hba) (lt_irrefl _)⟩
  have heq := List.eq_of_perm_of_sorted hp (hs m1 h1) (hs m2 h2)
  have ek : m1.keys = m2.keys := by
    rw [← List.map_fst_zip m1.keys m1.vals (by rw [h1.2]),
      ← List.map_fst_zip m2.keys m2.vals (by rw [h2.2]), heq]
  have ev : m1.vals = m2.vals := by
    rw [← List.map_snd_zip m1.keys m1.vals (by rw [h1.2]),
      ← List.map_snd_zip m2.keys m2.vals (by rw [h2.2]), heq]
  cases m1; cases m2
  simp only at ek ev
  subst ek ev
  rfl

/-- Putting pairs with pairwise distinct keys into a new map gives the map whose
keys are those keys in ascending order, each with its value. -/
theorem Map.run_putAll_eq (pairs : List (K × V)) (m : Map K V) (hwf : m.WellFormed)
    (hnd : (pairs.map Prod.fst).Nodup) (hp : (m.keys.zip m.vals).Perm pairs) :
    (NewMap : Map K V).run (putAll pairs) = some m := by
  obtain ⟨m1, hrun, hw1, hp1⟩ := Map.run_putAll_entries pairs NewMap NewMap_wellFormed hnd
    (fun k _ h => by simp [NewMap] at h)
  have : m1 = m := Map.eq_of_entries_perm m1 m hw1 hwf (by
    refine hp1.trans ?_
    simp only [NewMap, List.zip_nil_left, List.nil_append]
    exact hp.symm)
  rw [hrun, this]

end OrderLemmas

section MarshalClaims

variable {K V ε : Type}

/-- C17. Encode failure propagates without partial output: on a map with as many
values as keys (a successful `json.Marshal` of a key never gives an empty text),
`MarshalJSON` does not panic and returns either a whole document without error
or an error without bytes; when the first pair that fails to encode fails with
`err`, it returns `err` and no bytes; it returns a document only if every key
and value encodes, and an error only if it is the error of a key or of a
value. -/
theorem C17_encode_failure (encK : K → Except ε Bytes) (encV : V → Except ε Bytes)
    (m : Map K V) (hlen : m.Keys.length = m.Vals.length)
    (hne : ∀ k ∈ m.Keys, ∀ t, encK k = .ok t → t ≠ []) :
    ((∃ out, m.MarshalJSON encK encV = some (some out, none))
        ∨ (∃ err, m.MarshalJSON encK encV = some (none, some err)))
    ∧ (∀ (j : Nat) (err : ε),
        (∀ p : Nat, p < j → ∃ k v, m.Keys[p]? = some k ∧ m.Vals[p]? = some v
            ∧ (∃ t, encK k = .ok t) ∧ (∃ t, encV v = .ok t)) →
        (∃ k v, m.Keys[j]? = some k ∧ m.Vals[j]? = some v
            ∧ (encK k = .error err ∨ ((∃ t, encK k = .ok t) ∧ encV v = .error err))) →
        m.MarshalJSON encK encV = some (none, some err))
    ∧ (∀ out, m.MarshalJSON encK encV = some (some out, none) →
        (∀ k ∈ m.Keys, ∃ t, encK k = .ok t) ∧ (∀ v ∈ m.Vals, ∃ t, encV v = .ok t))
    ∧ (∀ out err, m.MarshalJSON encK encV = some (out, some err) →
        out = none
          ∧ ((∃ k ∈ m.Keys, encK k = .error err) ∨ (∃ v ∈ m.Vals, encV v = .error err))) := by
  have hl : m.keys.length = m.vals.length := hlen
  obtain ⟨st1, hrun, herr⟩ := Map.itemsFrom_marshal_total encK encV m.Len m.vals m.keys 0
    { buf := ['{'], i := 0, ret := none } rfl (by omega) hne
  have hM : m.MarshalJSON encK encV = match st1.ret with
      | some err => some (none, some err)
      | none => some (some (st1.buf ++ ['}']), none) := by
    unfold Map.MarshalJSON Map.Items
    rw [hrun]
  refine ⟨?_, ?_, ?_, ?_⟩
  · rw [hM]
    cases st1.ret with
    | none => exact Or.inl ⟨_, rfl⟩
    | some err => exact Or.inr ⟨err, rfl⟩
  · intro j err hpre hj
    obtain ⟨st2, hrun2, hr2⟩ := Map.itemsFrom_marshal_fail encK encV m.Len m.vals err m.keys 0 j
      { buf := ['{'], i := 0, ret := none } (by omega) hne
      (by simpa [Map.Keys, Map.Vals] using hpre) (by simpa [Map.Keys, Map.Vals] using hj)
    rw [hrun] at hrun2
    cases hrun2
    rw [hM, hr2]
  · intro out hout
    rw [hM] at hout
    cases hr : st1.ret with
    | some err => rw [hr] at hout; cases hout
    | none =>
      obtain ⟨h1, h2⟩ := Map.itemsFrom_marshal_success encK encV m.Len m.vals m.keys 0 _ st1
        (by omega) hne hrun hr
      refine ⟨h1, fun v hv => ?_⟩
      have hv1 : v ∈ m.vals := hv
      obtain ⟨p, hp, rfl⟩ := List.getElem_of_mem hv1
      exact h2 p _ (by omega) (by rw [Nat.zero_add]; exact List.getElem?_eq_getElem hp)
  · intro out err hout
    rw [hM] at hout
    cases hr : st1.ret with
    | none => rw [hr] at hout; cases hout
    | some e1 =>
      rw [hr] at hout
      cases hout
      exact ⟨rfl, herr err hr⟩

/-- Witness for C17: the key 3 has no JSON form, the pair before it encodes. -/
theorem C17_encode_failure_witness :
    (⟨[1, 3], ["a", "b"]⟩ : Map Int String).Keys.length
        = (⟨[1, 3], ["a", "b"]⟩ : Map Int String).Vals.length
    ∧ (⟨[1, 3], ["a", "b"]⟩ : Map Int String).MarshalJSON
        (fun n => if n = 3 then Except.error JsonError.unsupportedValue else jsonInt n) jsonText
        = some (none, some JsonError.unsupportedValue) :=
  ⟨by decide,
    (C17_encode_failure
      (fun n => if n = 3 then Except.error JsonError.unsupportedValue else jsonInt n) jsonText
      (⟨[1, 3], ["a", "b"]⟩ : Map Int String) (by decide)
      (by
        intro k hk t ht
        have hk1 : k = 1 ∨ k = 3 := by simpa [Map.Keys] using hk
        rcases hk1 with rfl | rfl
        · simp only [jsonInt] at ht
          cases ht
          decide
        · simp at ht)).2.1 1 JsonError.unsupportedValue
      (by
        intro p hp
        have : p = 0 := by omega
        subst this
        exact ⟨1, "a", rfl, rfl, ⟨_, rfl⟩, ⟨_, rfl⟩⟩)
      ⟨3, "b", rfl, rfl, Or.inl rfl⟩⟩

/-- C12. Map encoding format and order: for a well-formed map whose keys and values
all encode (to the texts `kt k` and `vt v`, a key text never being empty),
`MarshalJSON` returns exactly `{`, one field per key in the ascending order of
`Keys()`, each field the key text (between double quotes unless it begins with
one), `:` and the value text, the fields separated by a single `,`, then `}`;
the empty map gives `{}`; `Put(4711,"foo")`, `Put(4713,"hej")`, `Put(4712,"bar")`
encodes to `{"4711":"foo","4712":"bar","4713":"hej"}`, and the string keys
`foo`, `hej`, `bar` put with the values 4711, 4713, 4712 encode to
`{"bar":4712,"foo":4711,"hej":4713}`. -/
theorem C12_marshal_format [LinearOrder K] (encK : K → Except ε Bytes)
    (encV : V → Except ε Bytes) (kt : K → Bytes) (vt : V → Bytes) (m : Map K V)
    (hwf : m.WellFormed)
    (hk : ∀ k ∈ m.Keys, encK k = .ok (kt k) ∧ kt k ≠ [])
    (hv : ∀ v ∈ m.Vals, encV v = .ok (vt v)) :
    m.MarshalJSON encK encV = some (some (specObject (specFields kt vt m)), none)
    ∧ (specFields kt vt m).length = m.Len
    ∧ (∀ (i : Nat) (k : K) (v : V), m.Keys[i]? = some k → m.Vals[i]? = some v →
        (specFields kt vt m)[i]? = some (specField (kt k) (vt v)))
    ∧ StrictAsc m.Keys
    ∧ (NewMap : Map K V).MarshalJSON encK encV = some (some ['{', '}'], none)
    ∧ ((NewMap : Map Int String).run [.put 4711 "foo", .put 4713 "hej", .put 4712 "bar"]).bind
        (fun m1 => m1.MarshalJSON (jsonInt : Int → Except JsonError Bytes) jsonText)
        = some (some
            "\x7b\"4711\":\"foo\",\"4712\":\"bar\",\"4713\":\"hej\"\x7d".toList, none)
    ∧ ((NewMap : Map String Int).run [.put "foo" 4711, .put "hej" 4713, .put "bar" 4712]).bind
        (fun m2 => m2.MarshalJSON (jsonText : String → Except JsonError Bytes) jsonInt)
        = some (some "\x7b\"bar\":4712,\"foo\":4711,\"hej\":4713\x7d".toList, none) := by
  refine ⟨Map.MarshalJSON_ok encK encV kt vt m hwf.2 hk hv, ?_, ?_, hwf.1, rfl, by decide, ?_⟩
  · simp [specFields, Map.Len, hwf.2]
  · intro i k v hki hvi
    have hki1 : m.keys[i]? = some k := hki
    have hvi1 : m.vals[i]? = some v := hvi
    simp [specFields, List.getElem?_zipWith, hki1, hvi1]
  · have hrun : (NewMap : Map String Int).run
          [.put "foo" 4711, .put "hej" 4713, .put "bar" 4712]
        = some ⟨["bar", "foo", "hej"], [4712, 4711, 4713]⟩ := by
      refine Map.run_putAll_eq [("foo", 4711), ("hej", 4713), ("bar", 4712)] _ ?_
        (by decide) (by decide)
      rw [Map.wellFormed_iff]
      refine ⟨?_, rfl⟩
      simp
      decide
    rw [hrun]
    decide

/-- Witness for C12: the map of the test, encoded with the integer and string
encoders. -/
theorem C12_marshal_format_witness :
    (⟨[4711, 4712], ["foo", "bar"]⟩ : Map Int String).WellFormed
    ∧ (⟨[4711, 4712], ["foo", "bar"]⟩ : Map Int String).MarshalJSON
        (jsonInt : Int → Except JsonError Bytes) jsonText
      = some (some (specObject (specFields (fun n => (toString n).toList)
          (fun t => '"' :: t.toList ++ ['"'])
          (⟨[4711, 4712], ["foo", "bar"]⟩ : Map Int String))), none) :=
  ⟨by decide,
    (C12_marshal_format (jsonInt : Int → Except JsonError Bytes) jsonText
      (fun n => (toString n).toList) (fun t => '"' :: t.toList ++ ['"'])
      (⟨[4711, 4712], ["foo", "bar"]⟩ : Map Int String) (by decide)
      (by
        intro k hk
        have hk1 : k = 4711 ∨ k = 4712 := by simpa [Map.Keys] using hk
        rcases hk1 with rfl | rfl <;> exact ⟨rfl, by decide⟩)
      (by
        intro v hv
        have hv1 : v = "foo" ∨ v = "bar" := by simpa [Map.Vals] using hv
        rcases hv1 with rfl | rfl <;> rfl)).1⟩

end MarshalClaims

/-! ## Insertion-order independence -/

section OrderClaims

variable {K V : Type} [LinearOrder K]

/-- C19. Insertion-order independence: for a list of key-value pairs with pairwise
distinct keys and any permutation of it, putting the pairs into a new map in
either order runs without panic and gives maps with the same `Keys()` and the
same `Vals()`, hence the same `MarshalJSON` output for any encoders. -/
theorem C19_insertion_order_independent (pairs pairs2 : List (K × V))
    (hnd : (pairs.map Prod.fst).Nodup) (hperm : pairs2.Perm pairs) :
    ∃ m1 m2 : Map K V, (NewMap : Map K V).run (putAll pairs) = some m1
      ∧ (NewMap : Map K V).run (putAll pairs2) = some m2
      ∧ m1.Keys = m2.Keys ∧ m1.Vals = m2.Vals
      ∧ ∀ (ε : Type) (encK : K → Except ε Bytes) (encV : V → Except ε Bytes),
          m1.MarshalJSON encK encV = m2.MarshalJSON encK encV := by
  have hnd2 : (pairs2.map Prod.fst).Nodup := ((hperm.map Prod.fst).nodup_iff).mpr hnd
  obtain ⟨m1, hr1, hw1, hp1⟩ := Map.run_putAll_entries pairs NewMap NewMap_wellFormed hnd
    (fun k _ h => by simp [NewMap] at h)
  obtain ⟨m2, hr2, hw2, hp2⟩ := Map.run_putAll_entries pairs2 NewMap NewMap_wellFormed hnd2
    (fun k _ h => by simp [NewMap] at h)
  have e : m1 = m2 := Map.eq_of_entries_perm m1 m2 hw1 hw2 (by
    refine hp1.trans ?_
    refine List.Perm.trans ?_ hp2.symm
    exact List.Perm.append_left _ hperm.symm)
  subst e
  exact ⟨m1, m1, hr1, hr2, rfl, rfl, fun _ _ _ => rfl⟩

/-- Witness for C19: the three pairs of the test in two orders. -/
theorem C19_insertion_order_independent_witness :
    (([(4711, "foo"), (4713, "hej"), (4712, "bar")] : List (Int × String)).map Prod.fst).Nodup
    ∧ ([(4712, "bar"), (4711, "foo"), (4713, "hej")] : List (Int × String)).Perm
        [(4711, "foo"), (4713, "hej"), (4712, "bar")]
    ∧ ∃ m1 m2 : Map Int String,
        (NewMap : Map Int String).run (putAll [(4711, "foo"), (4713, "hej"), (4712, "bar")])
          = some m1
        ∧ (NewMap : Map Int String).run (putAll [(4712, "bar"), (4711, "foo"), (4713, "hej")])
          = some m2
        ∧ m1.Keys = m2.Keys ∧ m1.Vals = m2.Vals
        ∧ ∀ (ε : Type) (encK : Int → Except ε Bytes) (encV : String → Except ε Bytes),
            m1.MarshalJSON encK encV = m2.MarshalJSON encK encV :=
  ⟨by decide, by decide,
    C19_insertion_order_independent [(4711, "foo"), (4713, "hej"), (4712, "bar")]
      [(4712, "bar"), (4711, "foo"), (4713, "hej")] (by decide) (by decide)⟩

end OrderClaims

/-! ## Encoding and decoding of a set -/

section SetJsonLemmas

variable {T ε : Type}

/-- The scan of `slices.Compact` changes nothing when no element equals the one
before it. -/
theorem compactFrom_of_pairwise [LinearOrder T] (l : List T) :
    ∀ prev : T, (prev :: l).Pairwise (fun a b => a < b) → slices.compactFrom prev l = l := by
  induction l with
  | nil => intro prev _; rfl
  | cons b rest ih =>
    intro prev h
    have hlt : prev < b := (List.pairwise_cons.mp h).1 b (List.mem_cons_self _ _)
    unfold slices.compactFrom
    rw [if_neg (ne_of_gt hlt), ih b (List.pairwise_cons.mp h).2]

/-- The normalisation `toSliceSet` is the identity on strictly ascending slices. -/
theorem toSliceSet_of_pairwise [LinearOrder T] (l : List T)
    (h : l.Pairwise (fun a b => a < b)) : toSliceSet l = l := by
  have hs : slices.SortSlice l = l :=
    (SortSlice_unique l l (List.Perm.refl l) (h.imp (fun hab => le_of_lt hab))).symm
  unfold toSliceSet
  rw [hs]
  cases l with
  | nil => rfl
  | cons a rest =>
    show a :: slices.compactFrom a rest = a :: rest
    rw [compactFrom_of_pairwise rest a h]

/-- A set whose slice is nil encodes as `null`, whatever the element encoder. -/
theorem Set.MarshalJSON_nil (enc : T → Except ε Bytes) (s : Set T) (h : s.isNil = true) :
    s.MarshalJSON enc = (some ['n', 'u', 'l', 'l'], none) := by
  simp [Set.MarshalJSON, jsonMarshalSlice, h]

/-- What `UnmarshalJSON` does when the decoder succeeds: the decoded slice is
normalised. -/
theorem Set.UnmarshalJSON_ok [LinearOrder T] (unmarshal : Bytes → Set T → Set T × Option ε)
    (s d : Set T) (b : Bytes) (h : unmarshal b s = (d, none)) :
    s.UnmarshalJSON unmarshal b = ({ vals := toSliceSet d.vals, isNil := d.isNil }, none) := by
  simp [Set.UnmarshalJSON, h]

/-- What `UnmarshalJSON` does when the decoder fails: it returns the error and
leaves the slice as the decoder left it. -/
theorem Set.UnmarshalJSON_error [LinearOrder T]
    (unmarshal : Bytes → Set T → Set T × Option ε)
    (s d : Set T) (b : Bytes) (err : ε) (h : unmarshal b s = (d, some err)) :
    s.UnmarshalJSON unmarshal b = (d, some err) := by
  simp [Set.UnmarshalJSON, h]

end SetJsonLemmas

/-! ## The integer codec -/

section IntCodecLemmas

/-- The text of an integer, as `json.Marshal` writes it. -/
theorem jsonInt_eq {ε : Type} (n : Int) :
    (jsonInt n : Except ε Bytes) = .ok (toString n).toList := rfl

theorem digitChar_facts : ∀ k : Nat, k < 10 →
    (Nat.digitChar k).isDigit = true ∧ digitVal (Nat.digitChar k) = k
      ∧ (k ≠ 0 → Nat.digitChar k ≠ '0') := by
  decide

/-- The value that a run of digits adds to an accumulator. -/
theorem foldl_digits_append (ds : List Char) (d : Char) (a : Nat) :
    (ds ++ [d]).foldl (fun n c => 10 * n + digitVal c) a
      = 10 * ds.foldl (fun n c => 10 * n + digitVal c) a + digitVal d := by
  simp [List.foldl_append]

/-- The digits that Lean's printer writes for a natural number: at least one, all
decimal digits, no leading zero except for zero itself, and of value `n`. -/
theorem toDigitsCore_spec : ∀ (fuel n : Nat), n < fuel →
    ∃ pre : List Char, (∀ ds, Nat.toDigitsCore 10 fuel n ds = pre ++ ds)
      ∧ pre ≠ [] ∧ pre.all Char.isDigit = true
      ∧ pre.foldl (fun n c => 10 * n + digitVal c) 0 = n
      ∧ (0 < n → ∃ hd tl, pre = hd :: tl ∧ hd ≠ '0')
      ∧ (n = 0 → pre = ['0']) := by
  intro fuel
  induction fuel with
  | zero => intro n h; omega
  | succ fuel ih =>
    intro n hn
    obtain ⟨hd1, hd2, hd3⟩ := digitChar_facts (n % 10) (Nat.mod_lt _ (by decide))
    by_cases h0 : n / 10 = 0
    · have hlt : n < 10 := by omega
      have hmod : n % 10 = n := Nat.mod_eq_of_lt hlt
      refine ⟨[Nat.digitChar (n % 10)], ?_, by simp, by simp [hd1], ?_, ?_, ?_⟩
      · intro ds
        simp [Nat.toDigitsCore, h0]
      · rw [hmod] at hd2
        simp [hd2, hmod]
      · intro hpos
        exact ⟨_, [], rfl, hd3 (by omega)⟩
      · intro hz
        subst hz
        rfl
    · have hlt : n / 10 < fuel := by omega
      obtain ⟨pre, hpre, hne, hall, hval, hhead, _⟩ := ih (n / 10) hlt
      refine ⟨pre ++ [Nat.digitChar (n % 10)], ?_, by simp, ?_, ?_, ?_, ?_⟩
      · intro ds
        simp [Nat.toDigitsCore, h0, hpre]
      · simp [List.all_append, hall, hd1]
      · rw [foldl_digits_append, hval, hd2]
        omega
      · intro _
        obtain ⟨hd, tl, e, hh⟩ := hhead (by omega)
        exact ⟨hd, tl ++ [Nat.digitChar (n % 10)], by simp [e], hh⟩
      · intro hz
        omega

/-- The text of a natural number. -/
theorem natText_spec (m : Nat) :
    (toString m).toList ≠ [] ∧ (toString m).toList.all Char.isDigit = true
      ∧ (toString m).toList.foldl (fun n c => 10 * n + digitVal c) 0 = m
      ∧ (0 < m → ∃ hd tl, (toString m).toList = hd :: tl ∧ hd ≠ '0')
      ∧ (m = 0 → (toString m).toList = ['0']) := by
  obtain ⟨pre, hpre, h1, h2, h3, h4, h5⟩ := toDigitsCore_spec (m + 1) m (by omega)
  have e : (toString m).toList = pre := by
    show Nat.toDigitsCore 10 (m + 1) m [] = pre
    rw [hpre]; simp
  rw [e]
  exact ⟨h1, h2, h3, h4, h5⟩

theorem negText_eq (m : Nat) :
    (toString (Int.negSucc m)).toList = '-' :: (toString (m + 1)).toList := rfl

theorem ofNatText_eq (m : Nat) : (toString (Int.ofNat m)).toList = (toString m).toList := rfl

theorem isDigit_ne {c d : Char} (h : c.isDigit = true) (hd : d.isDigit = false) : c ≠ d := by
  intro e
  subst e
  rw [h] at hd
  cases hd

/-- The parser of integer literals reads back the text of an integer. -/
theorem parseIntLit_text (n : Int) : parseIntLit (toString n).toList = some n := by
  cases n with
  | ofNat m =>
    obtain ⟨h1, h2, h3, _, _⟩ := natText_spec m
    rw [ofNatText_eq]
    cases hm : (toString m).toList with
    | nil => exact absurd hm h1
    | cons hd tl =>
      rw [hm] at h2 h3
      have hhd : hd.isDigit = true := by simp at h2; exact h2.1
      have hne : hd ≠ '-' := isDigit_ne hhd (by decide)
      unfold parseIntLit
      split
      · rename_i ds heq
        simp only [List.cons.injEq] at heq
        exact absurd heq.1.symm (fun e => hne e.symm)
      · simp only [natOfDigits, ne_eq, reduceCtorEq, not_false_eq_true, h2, and_self, if_true,
          Option.map_some', h3]
        rfl
  | negSucc m =>
    obtain ⟨h1, h2, h3, _, _⟩ := natText_spec (m + 1)
    rw [negText_eq]
    simp only [parseIntLit, natOfDigits, ne_eq, h1, not_false_eq_true, h2, and_self, if_true,
      Option.map_some', h3]
    rfl

/-- The element decoder stores the integer whose text it is given, when that
integer is in the range of `int`. -/
theorem intSlot_text (n : Int) (hr : -(2 : Int) ^ 63 ≤ n ∧ n < (2 : Int) ^ 63) :
    intSlot (.number (toString n).toList) = .store n := by
  simp only [intSlot, parseIntLit_text, hr, and_self, if_true]

end IntCodecLemmas

section LexLemmas

/-- The scanner on a digit other than zero at the start of a token. -/
theorem startStep_digit {c : Char} (h : c.isDigit = true) (h0 : c ≠ '0') :
    startStep c = some (.int [c], []) := by
  have e1 : c ≠ ' ' := isDigit_ne h (by decide)
  have e2 : c ≠ '\t' := isDigit_ne h (by decide)
  have e3 : c ≠ '\r' := isDigit_ne h (by decide)
  have e4 : c ≠ '\n' := isDigit_ne h (by decide)
  have e5 : c ≠ '[' := isDigit_ne h (by decide)
  have e6 : c ≠ ']' := isDigit_ne h (by decide)
  have e7 : c ≠ '{' := isDigit_ne h (by decide)
  have e8 : c ≠ '}' := isDigit_ne h (by decide)
  have e9 : c ≠ ',' := isDigit_ne h (by decide)
  have e10 : c ≠ ':' := isDigit_ne h (by decide)
  have e11 : c ≠ '"' := isDigit_ne h (by decide)
  have e12 : c ≠ '-' := isDigit_ne h (by decide)
  simp [startStep, e1, e2, e3, e4, e5, e6, e7, e8, e9, e10, e11, e12, h0, h]

/-- The scanner inside the digits of an integer reads on through digits. -/
theorem lex_int_digits (ds : List Char) (hds : ds.all Char.isDigit = true) :
    ∀ (acc rest : List Char), lex (.int acc) (ds ++ rest) = lex (.int (acc ++ ds)) rest := by
  induction ds with
  | nil => intro acc rest; simp
  | cons d ds ih =>
    intro acc rest
    simp only [List.all_cons, Bool.and_eq_true] at hds
    rw [List.cons_append, lex]
    simp only [hds.1, if_true]
    rw [ih hds.2]
    simp

/-- The scanner on the digits of a natural number followed by a comma or a
closing bracket: `acc` is what the number began with (nothing, or a minus
sign). -/
theorem lex_natText (m : Nat) (acc : List Char) (st : LexState)
    (hst : (acc = [] ∧ st = .start) ∨ (0 < m ∧ st = .minus acc))
    (c : Char) (tok : JsonTok) (hc : startStep c = some (.start, [tok]))
    (hcd : c.isDigit = false) (hc1 : c ≠ '.') (hc2 : c ≠ 'e') (hc3 : c ≠ 'E')
    (rest : List Char) :
    lex st ((toString m).toList ++ c :: rest)
      = (lex .start rest).map (fun r => .number (acc ++ (toString m).toList) :: tok :: r) := by
  obtain ⟨h1, h2, _, h4, h5⟩ := natText_spec m
  rcases Nat.eq_zero_or_pos m with hm | hm
  · rcases hst with ⟨ha, hs⟩ | ⟨hpos, _⟩
    · subst ha hs
      rw [h5 hm]
      simp only [List.cons_append, List.nil_append]
      rw [lex]
      have : startStep '0' = some (.zero ['0'], []) := by decide
      simp only [this]
      rw [lex]
      simp only [hc1, hc2, hc3, or_self, if_false, hc]
      cases lex .start rest <;> simp
    · omega
  · obtain ⟨hd, tl, e, hne⟩ := h4 hm
    rw [e] at h2 ⊢
    simp only [List.all_cons, Bool.and_eq_true] at h2
    have key : ∀ a : List Char, lex (.int (a ++ [hd])) (tl ++ c :: rest)
        = (lex .start rest).map (fun r => .number (a ++ hd :: tl) :: tok :: r) := by
      intro a
      rw [lex_int_digits tl h2.2, lex]
      simp only [hcd, Bool.false_eq_true, if_false, hc1, hc2, hc3, or_self, hc]
      cases lex .start rest <;> simp
    rcases hst with ⟨ha, hs⟩ | ⟨_, hs⟩
    · subst ha hs
      rw [List.cons_append, lex]
      simp only [startStep_digit h2.1 hne]
      have := key []
      simp only [List.nil_append] at this
      rw [this]
      cases lex .start rest <;> simp
    · subst hs
      rw [List.cons_append, lex]
      simp only [hne, if_false, h2.1, if_true]
      exact key acc

/-- The scanner on the text of an integer followed by a comma or a closing
bracket. -/
theorem lex_intText (n : Int) (c : Char) (tok : JsonTok)
    (hc : startStep c = some (.start, [tok]))
    (hcd : c.isDigit = false) (hc1 : c ≠ '.') (hc2 : c ≠ 'e') (hc3 : c ≠ 'E')
    (rest : List Char) :
    lex .start ((toString n).toList ++ c :: rest)
      = (lex .start rest).map (fun r => .number (toString n).toList :: tok :: r) := by
  cases n with
  | ofNat m =>
    rw [ofNatText_eq]
    have := lex_natText m [] .start (Or.inl ⟨rfl, rfl⟩) c tok hc hcd hc1 hc2 hc3 rest
    simpa using this
  | negSucc m =>
    rw [negText_eq, List.cons_append, lex]
    have e : startStep '-' = some (.minus ['-'], []) := by decide
    simp only [e]
    have := lex_natText (m + 1) ['-'] (.minus ['-']) (Or.inr ⟨by omega, rfl⟩) c tok hc hcd
      hc1 hc2 hc3 rest
    rw [this]
    cases lex .start rest <;> simp

/-- The tokens of the integers of an array, after its opening bracket. -/
theorem lex_intArray_tail : ∀ (n : Int) (ns : List Int),
    lex .start (List.intercalate [','] ((n :: ns).map (fun k => (toString k).toList)) ++ [']'])
      = some (((n :: ns).map (fun k => JsonTok.number (toString k).toList)).intersperse .comma
          ++ [.endArray]) := by
  intro n ns
  induction ns generalizing n with
  | nil =>
    have := lex_intText n ']' .endArray (by decide) (by decide) (by decide) (by decide)
      (by decide) []
    simpa [List.intercalate, lex] using this
  | cons m ns ih =>
    rw [List.map_cons, List.map_cons, intercalate_cons_cons]
    have := lex_intText n ',' .comma (by decide) (by decide) (by decide) (by decide)
      (by decide) (List.intercalate [','] ((m :: ns).map (fun k => (toString k).toList)) ++ [']'])
    have e : (toString n).toList ++ [','] ++ List.intercalate [',']
          ((toString m).toList :: ns.map (fun k => (toString k).toList)) ++ [']']
        = (toString n).toList ++ ',' ::
          (List.intercalate [','] ((m :: ns).map (fun k => (toString k).toList)) ++ [']']) := by
      simp
    rw [e, this, ih m]
    simp [List.intersperse]

/-- The grammar accepts numbers separated by commas inside an array. -/
theorem validTokens_numbers : ∀ (n : Int) (ns : List Int) (mayEnd : Bool),
    validTokens [true] (.value mayEnd)
      (((n :: ns).map (fun k => JsonTok.number (toString k).toList)).intersperse .comma
        ++ [.endArray]) = true := by
  intro n ns
  induction ns generalizing n with
  | nil => intro mayEnd; simp [List.intersperse, validTokens]
  | cons m ns ih =>
    intro mayEnd
    have := ih m false
    simp only [List.map_cons] at this
    simp only [List.map_cons, List.intersperse, List.cons_append, validTokens]
    exact this

/-- The elements of an array of numbers. -/
theorem topElems_numbers : ∀ (ns : List Int),
    topElems 0 ((ns.map (fun k => JsonTok.number (toString k).toList)).intersperse .comma
        ++ [.endArray])
      = ns.map (fun k => JsonElem.number (toString k).toList) := by
  intro ns
  induction ns with
  | nil => simp [List.intersperse, topElems]
  | cons n ns ih =>
    cases ns with
    | nil => simp [List.intersperse, topElems]
    | cons m ns =>
      simp only [List.map_cons] at ih
      simp only [List.map_cons, List.intersperse, List.cons_append, topElems, List.cons.injEq,
        true_and]
      exact ih

/-- The text that `json.Marshal` writes for a slice of integers that is not nil
is read back by the scanner as the array of these numbers. -/
theorem jsonDoc_intArray (ns : List Int) :
    jsonDoc (['['] ++ List.intercalate [','] (ns.map (fun k => (toString k).toList)) ++ [']'])
      = .array (ns.map (fun k => JsonElem.number (toString k).toList)) := by
  cases ns with
  | nil => rfl
  | cons n ns =>
    have hl := lex_intArray_tail n ns
    have hv := validTokens_numbers n ns true
    have ht := topElems_numbers (n :: ns)
    unfold jsonDoc
    simp only [List.singleton_append, List.cons_append]
    rw [lex]
    have e : startStep '[' = some (.start, [.beginArray]) := by decide
    simp only [e, List.nil_append, hl, Option.map_some', List.singleton_append]
    simp only [validTokens, hv, if_true, ht]

/-- Storing elements that all decode to a value gives these values, whatever the
slice held. -/
theorem storeElems_all_store {T : Type} (slotOf : JsonElem → Slot T) (zero : T)
    (backing : List T) : ∀ (es : List JsonElem) (xs : List T) (i : Nat),
    es.map slotOf = xs.map Slot.store → storeElems slotOf zero backing i es = xs := by
  intro es
  induction es with
  | nil =>
    intro xs i h
    cases xs with
    | nil => rfl
    | cons x xs => simp at h
  | cons e es ih =>
    intro xs i h
    cases xs with
    | nil => simp at h
    | cons x xs =>
      simp only [List.map_cons, List.cons.injEq] at h
      simp only [storeElems, h.1, ih xs (i + 1) h.2]

/-- Elements that all decode to a value raise no type error. -/
theorem any_mismatch_all_store {T : Type} (slotOf : JsonElem → Slot T) :
    ∀ (es : List JsonElem) (xs : List T), es.map slotOf = xs.map Slot.store →
      es.any (fun e => (slotOf e).isMismatch) = false := by
  intro es
  induction es with
  | nil => intro xs h; rfl
  | cons e es ih =>
    intro xs h
    cases xs with
    | nil => simp at h
    | cons x xs =>
      simp only [List.map_cons, List.cons.injEq] at h
      rw [List.any_cons, h.1, ih xs h.2]
      rfl

/-- Decoding a text that is an array of elements which all decode to a value:
the slice holds these values, in the order of the text, and no error is
returned, whatever the set held and whatever lies beyond its length. -/
theorem jsonUnmarshalSlice_all_store {T : Type} (slotOf : JsonElem → Slot T) (zero : T)
    (spare : List T) (b : Bytes) (s : Set T) (es : List JsonElem) (xs : List T)
    (hdoc : jsonDoc b = .array es) (hes : es.map slotOf = xs.map Slot.store) :
    jsonUnmarshalSlice slotOf zero spare b s = ({ vals := xs, isNil := false }, none) := by
  unfold jsonUnmarshalSlice
  rw [hdoc]
  simp only [storeElems_all_store slotOf zero _ es xs 0 hes,
    any_mismatch_all_store slotOf es xs hes, Bool.false_eq_true, if_false]

/-- The texts of a slice of integers. -/
theorem jsonMarshalElems_int {ε : Type} (ns : List Int) :
    jsonMarshalElems (jsonInt : Int → Except ε Bytes) ns
      = .ok (ns.map (fun k => (toString k).toList)) := by
  induction ns with
  | nil => rfl
  | cons n ns ih => simp [jsonMarshalElems, ih, jsonInt]

/-- The elements of the text of a slice of integers in the range of `int` decode
to these integers. -/
theorem intSlot_texts (ns : List Int) (hr : ∀ n ∈ ns, -(2 : Int) ^ 63 ≤ n ∧ n < (2 : Int) ^ 63) :
    (ns.map (fun k => JsonElem.number (toString k).toList)).map intSlot = ns.map Slot.store := by
  induction ns with
  | nil => rfl
  | cons n ns ih =>
    simp only [List.map_cons, List.cons.injEq]
    exact ⟨intSlot_text n (hr n (by simp)), ih (fun k hk => hr k (by simp [hk]))⟩

end LexLemmas

section IntArrayLemmas

/-- Decoding the text that `json.Marshal` writes for a slice of integers in the
range of `int`: the slice holds these integers and no error is returned,
whatever the set held and whatever lies beyond its length. -/
theorem jsonUnmarshalInts_intArray (spare ns : List Int)
    (hr : ∀ n ∈ ns, -(2 : Int) ^ 63 ≤ n ∧ n < (2 : Int) ^ 63) (s : Set Int) :
    jsonUnmarshalInts spare
        (['['] ++ List.intercalate [','] (ns.map (fun k => (toString k).toList)) ++ [']']) s
      = ({ vals := ns, isNil := false }, none) :=
  jsonUnmarshalSlice_all_store intSlot 0 spare _ s _ ns (jsonDoc_intArray ns)
    (intSlot_texts ns hr)

/-- The encoding of a set of integers whose slice is not nil. -/
theorem Set.MarshalJSON_ints {ε : Type} (s : Set Int) (h : s.isNil = false) :
    s.MarshalJSON (jsonInt : Int → Except ε Bytes)
      = (some (['['] ++ List.intercalate [','] (s.vals.map (fun k => (toString k).toList))
          ++ [']']), none) := by
  simp [Set.MarshalJSON, jsonMarshalSlice, h, jsonMarshalElems_int]

end IntArrayLemmas

section SetJsonClaims

variable {T ε : Type} [LinearOrder T]

/-- C13. Set encoding, the code at the failing input: the set made by `NewSet()`
with no items holds the nil slice and `MarshalJSON` encodes it as `null`, which
is not the array encoding `[]`; a set emptied by `Del` does encode as `[]`, and
the set built by `Put(5)`, `Put(3)`, `Put(1)` encodes as `[1,3,5]`. -/
theorem C13_empty_newset_encodes_null (enc : T → Except ε Bytes) :
    (NewSet ([] : List T)).MarshalJSON enc = (some "null".toList, none)
    ∧ "null".toList ≠ "[]".toList
    ∧ ((NewSet ([7] : List Int)).Del 7).map
        (fun r => r.1.MarshalJSON (jsonInt : Int → Except JsonError Bytes))
        = some (some "[]".toList, none)
    ∧ ((NewSet ([] : List Int)).run [.put 5, .put 3, .put 1]).map
        (fun s => s.MarshalJSON (jsonInt : Int → Except JsonError Bytes))
        = some (some "[1,3,5]".toList, none) :=
  ⟨Set.MarshalJSON_nil enc _ rfl, by decide, by decide, by decide⟩

/-- C14, the claim as worded is false: the sets of strings that hold the single
byte `0xFE` and the single byte `0xFF` are both strictly ascending, and
`MarshalJSON` gives both the same text `["\ufffd"]`, because `json.Marshal`
writes the replacement character for a byte that is not UTF-8. So no decoder
gives back `Values()` for both: whatever `json.Unmarshal` does with that text,
and whatever set it is decoded into, the round trip fails for one of the two
sets. -/
theorem C14_round_trip_counterexample :
    StrictAsc (⟨[[Char.ofNat 254]], false⟩ : Set (List Char)).Values
    ∧ StrictAsc (⟨[[Char.ofNat 255]], false⟩ : Set (List Char)).Values
    ∧ (⟨[[Char.ofNat 254]], false⟩ : Set (List Char)).MarshalJSON
        (jsonString : List Char → Except JsonError Bytes)
        = (some "[\"\\ufffd\"]".toList, none)
    ∧ (⟨[[Char.ofNat 255]], false⟩ : Set (List Char)).MarshalJSON
        (jsonString : List Char → Except JsonError Bytes)
        = (some "[\"\\ufffd\"]".toList, none)
    ∧ ∀ (unmarshal : Bytes → Set (List Char) → Set (List Char) × Option JsonError)
        (target : Set (List Char)),
        ¬ ∀ s : Set (List Char), StrictAsc s.Values →
          ∀ text : Bytes,
            s.MarshalJSON (jsonString : List Char → Except JsonError Bytes) = (some text, none) →
            ∃ s1 : Set (List Char),
              target.UnmarshalJSON unmarshal text = (s1, none) ∧ s1.Values = s.Values := by
  have h1 : StrictAsc (⟨[[Char.ofNat 254]], false⟩ : Set (List Char)).Values := by
    rw [strictAsc_iff_pairwise]
    exact List.pairwise_singleton _ _
  have h2 : StrictAsc (⟨[[Char.ofNat 255]], false⟩ : Set (List Char)).Values := by
    rw [strictAsc_iff_pairwise]
    exact List.pairwise_singleton _ _
  have e1 : (⟨[[Char.ofNat 254]], false⟩ : Set (List Char)).MarshalJSON
      (jsonString : List Char → Except JsonError Bytes)
      = (some "[\"\\ufffd\"]".toList, none) := by rfl
  have e2 : (⟨[[Char.ofNat 255]], false⟩ : Set (List Char)).MarshalJSON
      (jsonString : List Char → Except JsonError Bytes)
      = (some "[\"\\ufffd\"]".toList, none) := by rfl
  refine ⟨h1, h2, e1, e2, ?_⟩
  intro unmarshal target hall
  obtain ⟨a, ha, hva⟩ := hall _ h1 _ e1
  obtain ⟨b, hb, hvb⟩ := hall _ h2 _ e2
  rw [ha] at hb
  have hab : a = b := (Prod.mk.inj hb).1
  rw [hab, hvb] at hva
  revert hva
  decide

/-- C14, amended. Set round trip for sets of `int`: for a strictly ascending set `s`
of integers in the range of `int`, whose slice is nil only when it is empty,
`MarshalJSON` succeeds, and `UnmarshalJSON` of its output, into any set and
whatever lies beyond that set's length, succeeds and yields a set with the same
`Values()`; and `toSliceSet` is the identity on every strictly ascending
sequence. -/
theorem C14_set_round_trip (s target : Set Int) (spare : List Int)
    (hs : StrictAsc s.Values)
    (hr : ∀ n ∈ s.Values, -(2 : Int) ^ 63 ≤ n ∧ n < (2 : Int) ^ 63)
    (hnil : s.isNil = true → s.Values = []) :
    (∃ (text : Bytes) (s1 : Set Int),
        s.MarshalJSON (jsonInt : Int → Except JsonError Bytes) = (some text, none)
        ∧ target.UnmarshalJSON (jsonUnmarshalInts spare) text = (s1, none)
        ∧ s1.Values = s.Values)
    ∧ (∀ xs : List T, StrictAsc xs → toSliceSet xs = xs) := by
  have hp : s.vals.Pairwise (fun a b => a < b) := (strictAsc_iff_pairwise _).mp hs
  refine ⟨?_, fun xs hxs => toSliceSet_of_pairwise xs ((strictAsc_iff_pairwise _).mp hxs)⟩
  cases hn : s.isNil with
  | true =>
    have hv : s.vals = [] := hnil hn
    refine ⟨_, _, Set.MarshalJSON_nil _ s hn,
      Set.UnmarshalJSON_ok (jsonUnmarshalInts spare) target ⟨[], true⟩ _ rfl, ?_⟩
    show toSliceSet ([] : List Int) = s.vals
    rw [hv]
    rfl
  | false =>
    refine ⟨_, _, Set.MarshalJSON_ints s hn,
      Set.UnmarshalJSON_ok (jsonUnmarshalInts spare) target _ _
        (jsonUnmarshalInts_intArray spare s.vals hr target), ?_⟩
    show toSliceSet s.vals = s.vals
    exact toSliceSet_of_pairwise s.vals hp

/-- Witness for C14: the set with values -7, 0, 12 decoded into a set that held 9
and 4, with 5 beyond its length. -/
theorem C14_set_round_trip_witness :
    StrictAsc (⟨[-7, 0, 12], false⟩ : Set Int).Values
    ∧ (⟨[-7, 0, 12], false⟩ : Set Int).MarshalJSON (jsonInt : Int → Except JsonError Bytes)
        = (some "[-7,0,12]".toList, none)
    ∧ (⟨[9, 4], false⟩ : Set Int).UnmarshalJSON (jsonUnmarshalInts [5]) "[-7,0,12]".toList
        = (⟨[-7, 0, 12], false⟩, none)
    ∧ (∃ (text : Bytes) (s1 : Set Int),
        (⟨[-7, 0, 12], false⟩ : Set Int).MarshalJSON (jsonInt : Int → Except JsonError Bytes)
          = (some text, none)
        ∧ (⟨[9, 4], false⟩ : Set Int).UnmarshalJSON (jsonUnmarshalInts [5]) text = (s1, none)
        ∧ s1.Values = (⟨[-7, 0, 12], false⟩ : Set Int).Values)
    ∧ (∀ xs : List Int, StrictAsc xs → toSliceSet xs = xs) :=
  ⟨by decide, by decide, by decide,
    C14_set_round_trip ⟨[-7, 0, 12], false⟩ ⟨[9, 4], false⟩ [5] (by decide) (by decide)
      (by decide)⟩

/-- C15, the claim as worded is false: the text `[null,7]` is a well-formed array,
and `UnmarshalJSON` of it into the set with values 1, 2 succeeds and leaves
`Values() == [1, 7]`: the element `null` leaves slot 0 of the live slice as it
was, so 1, which the set held before and the array does not hold, is still
there. Decoded into the empty set the same text leaves `[0, 7]`, so the result
does depend on what the set held. And the well-formed array `[1.5]` is not
decoded with success: `UnmarshalJSON` returns a type error. -/
theorem C15_decode_null_counterexample :
    jsonDoc "[null,7]".toList = .array [.null, .number ['7']]
    ∧ (∀ spare : List Int,
        (⟨[1, 2], false⟩ : Set Int).UnmarshalJSON (jsonUnmarshalInts spare) "[null,7]".toList
          = (⟨[1, 7], false⟩, none))
    ∧ (1 : Int) ∈ (⟨[1, 7], false⟩ : Set Int).Values
    ∧ (⟨[1, 7], false⟩ : Set Int).Values ≠ (NewSet ([7] : List Int)).Values
    ∧ (NewSet ([] : List Int)).UnmarshalJSON (jsonUnmarshalInts []) "[null,7]".toList
        = (⟨[0, 7], false⟩, none)
    ∧ jsonDoc "[1.5]".toList = .array [.number ['1', '.', '5']]
    ∧ ((NewSet ([] : List Int)).UnmarshalJSON (jsonUnmarshalInts []) "[1.5]".toList).2
        = some JsonError.typeMismatch := by
  refine ⟨by decide, ?_, by decide, by decide, by decide, by decide, by decide⟩
  intro spare
  have hdoc : jsonDoc "[null,7]".toList = .array [.null, .number ['7']] := by decide
  have h : jsonUnmarshalInts spare "[null,7]".toList ⟨[1, 2], false⟩
      = (⟨[1, 7], false⟩, none) := by
    unfold jsonUnmarshalInts jsonUnmarshalSlice
    rw [hdoc]
    rfl
  exact Set.UnmarshalJSON_ok (jsonUnmarshalInts spare) _ _ _ h

/-- C15, amended. Set decode normalises, for arrays of integers: when the text `b`
is a JSON array (white space allowed) whose elements are all integer literals in
the range of `int`, of values `ns` in the order of the text (any order, any
duplicates), `UnmarshalJSON` succeeds, whatever the set held before and whatever
lies beyond its length, and leaves `Values()` strictly ascending, holding exactly
the elements of `ns`, the same as `NewSet(ns...).Values()`; this covers the text
that `json.Marshal` writes for any slice `ms` of integers in range; and decoding
`[7,8,1,1,1,1]` into any set of integers yields `Values() == [1,7,8]`. -/
theorem C15_decode_normalises (s : Set Int) (spare : List Int) (b : Bytes)
    (es : List JsonElem) (ns : List Int)
    (hdoc : jsonDoc b = .array es) (hes : es.map intSlot = ns.map Slot.store) :
    (∃ s1 : Set Int, s.UnmarshalJSON (jsonUnmarshalInts spare) b = (s1, none)
        ∧ StrictAsc s1.Values
        ∧ (∀ x, x ∈ s1.Values ↔ x ∈ ns)
        ∧ s1.Values = (NewSet ns).Values)
    ∧ (∀ ms : List Int, (∀ n ∈ ms, -(2 : Int) ^ 63 ≤ n ∧ n < (2 : Int) ^ 63) →
        ∃ s2 : Set Int,
          s.UnmarshalJSON (jsonUnmarshalInts spare)
            (['['] ++ List.intercalate [','] (ms.map (fun k => (toString k).toList)) ++ [']'])
            = (s2, none)
          ∧ StrictAsc s2.Values
          ∧ (∀ x, x ∈ s2.Values ↔ x ∈ ms)
          ∧ s2.Values = (NewSet ms).Values)
    ∧ (∃ s3 : Set Int,
        s.UnmarshalJSON (jsonUnmarshalInts spare) "[7,8,1,1,1,1]".toList = (s3, none)
        ∧ s3.Values = [1, 7, 8]) := by
  have key : ∀ (t : Bytes) (ks : List Int),
      jsonUnmarshalInts spare t s = (⟨ks, false⟩, none) →
      ∃ s1 : Set Int, s.UnmarshalJSON (jsonUnmarshalInts spare) t = (s1, none)
        ∧ StrictAsc s1.Values
        ∧ (∀ x, x ∈ s1.Values ↔ x ∈ ks)
        ∧ s1.Values = (NewSet ks).Values := by
    intro t ks h
    exact ⟨_, Set.UnmarshalJSON_ok (jsonUnmarshalInts spare) s _ t h,
      (strictAsc_iff_pairwise _).mpr (pairwise_toSliceSet ks),
      fun x => mem_toSliceSet ks x, rfl⟩
  refine ⟨key b ns (jsonUnmarshalSlice_all_store intSlot 0 spare b s es ns hdoc hes), ?_, ?_⟩
  · intro ms hms
    exact key _ ms (jsonUnmarshalInts_intArray spare ms hms s)
  · have h : jsonUnmarshalInts spare "[7,8,1,1,1,1]".toList s
        = (⟨[7, 8, 1, 1, 1, 1], false⟩, none) :=
      jsonUnmarshalSlice_all_store intSlot 0 spare _ s
        [.number ['7'], .number ['8'], .number ['1'], .number ['1'], .number ['1'],
          .number ['1']] [7, 8, 1, 1, 1, 1] (by decide) (by decide)
    exact ⟨_, Set.UnmarshalJSON_ok (jsonUnmarshalInts spare) s _ _ h, by decide⟩

/-- Witness for C15: the text ` [3, 1 ,3]` with white space and a line end,
decoded into a set that held 9, with 4 beyond its length. -/
theorem C15_decode_normalises_witness :
    jsonDoc " [3, 1 ,3]\n".toList = .array [.number ['3'], .number ['1'], .number ['3']]
    ∧ [JsonElem.number ['3'], .number ['1'], .number ['3']].map intSlot
        = ([3, 1, 3] : List Int).map Slot.store
    ∧ ∃ s1 : Set Int,
        (⟨[9], false⟩ : Set Int).UnmarshalJSON (jsonUnmarshalInts [4]) " [3, 1 ,3]\n".toList
          = (s1, none)
        ∧ StrictAsc s1.Values
        ∧ (∀ x, x ∈ s1.Values ↔ x ∈ ([3, 1, 3] : List Int))
        ∧ s1.Values = (NewSet ([3, 1, 3] : List Int)).Values :=
  ⟨by decide, by decide,
    (C15_decode_normalises ⟨[9], false⟩ [4] " [3, 1 ,3]\n".toList
      [.number ['3'], .number ['1'], .number ['3']] [3, 1, 3] (by decide) (by decide)).1⟩

/-- C16. Decode failure, the code at the failing input: whenever the decoder
returns an error, `UnmarshalJSON` returns it and leaves the slice as the decoder
left it, without normalising; decoding `[5,"x"]` into the set with values 1, 2
returns a type error and leaves `Values() == [5, 2]`, whatever lies beyond the
length of the slice, which differs from the values before the call and is not
strictly ascending; a text that is not JSON, `[5,,]`, does leave the set as it
was. -/
theorem C16_decode_failure_not_atomic (unmarshal : Bytes → Set T → Set T × Option ε) :
    (∀ (s d : Set T) (b : Bytes) (err : ε), unmarshal b s = (d, some err) →
        s.UnmarshalJSON unmarshal b = (d, some err))
    ∧ (∀ spare : List Int,
        (⟨[1, 2], false⟩ : Set Int).UnmarshalJSON (jsonUnmarshalInts spare) "[5,\"x\"]".toList
          = (⟨[5, 2], false⟩, some JsonError.typeMismatch))
    ∧ (⟨[5, 2], false⟩ : Set Int).Values ≠ (⟨[1, 2], false⟩ : Set Int).Values
    ∧ ¬ StrictAsc (⟨[5, 2], false⟩ : Set Int).Values
    ∧ (∀ spare : List Int,
        (⟨[1, 2], false⟩ : Set Int).UnmarshalJSON (jsonUnmarshalInts spare) "[5,,]".toList
          = (⟨[1, 2], false⟩, some JsonError.invalidText)) := by
  refine ⟨fun s d b err h => Set.UnmarshalJSON_error unmarshal s d b err h,
    ?_, by decide, by decide, ?_⟩
  · intro spare
    have hdoc : jsonDoc "[5,\"x\"]".toList = .array [.number ['5'], .string ['x']] := by decide
    have h : jsonUnmarshalInts spare "[5,\"x\"]".toList ⟨[1, 2], false⟩
        = (⟨[5, 2], false⟩, some JsonError.typeMismatch) := by
      have h0 : intSlot (.number ['5']) = .store 5 := by decide
      have h1 : intSlot (.string ['x']) = .mismatch := rfl
      unfold jsonUnmarshalInts jsonUnmarshalSlice
      rw [hdoc]
      simp [storeElems, h0, h1, Slot.isMismatch]
    exact Set.UnmarshalJSON_error (jsonUnmarshalInts spare) _ _ _ _ h
  · intro spare
    have hdoc : jsonDoc "[5,,]".toList = .invalid := by decide
    have h : jsonUnmarshalInts spare "[5,,]".toList ⟨[1, 2], false⟩
        = (⟨[1, 2], false⟩, some JsonError.invalidText) := by
      unfold jsonUnmarshalInts jsonUnmarshalSlice
      rw [hdoc]
    exact Set.UnmarshalJSON_error (jsonUnmarshalInts spare) _ _ _ _ h

end SetJsonClaims

/-! ## The map as a dictionary -/

section DictLemmas

variable {K V : Type} [LinearOrder K]

theorem Map.run_append (ops ops2 : List (MapOp K V)) :
    ∀ m : Map K V, m.run (ops ++ ops2) = (m.run ops).bind (fun m1 => m1.run ops2) := by
  induction ops with
  | nil => intro m; rfl
  | cons op ops ih =>
    intro m
    simp only [List.cons_append, Map.run]
    cases m.step op with
    | none => rfl
    | some m1 => exact ih m1

/-- On a well-formed map `Get` of an absent key returns the zero value and false. -/
theorem Map.Get_of_not_mem [Inhabited V] (m : Map K V) (k : K) (hwf : m.WellFormed)
    (hk : k ∉ m.keys) : m.Get k = some (default, false) :=
  Map.Get_not_found m k (Map.not_found_of_not_mem m k hwf hk)

/-- On well-formed maps the answer of `Get(k)` depends only on the entries with key `k`. -/
theorem Map.Get_congr [Inhabited V] (m1 m2 : Map K V) (k : K) (h1 : m1.WellFormed)
    (h2 : m2.WellFormed)
    (h : ∀ v : V, (∃ j : Nat, m1.keys[j]? = some k ∧ m1.vals[j]? = some v)
        ↔ (∃ j : Nat, m2.keys[j]? = some k ∧ m2.vals[j]? = some v)) :
    m1.Get k = m2.Get k := by
  have key : ∀ (a b : Map K V), a.WellFormed → b.WellFormed →
      (∀ v : V, (∃ j : Nat, a.keys[j]? = some k ∧ a.vals[j]? = some v)
        → (∃ j : Nat, b.keys[j]? = some k ∧ b.vals[j]? = some v)) →
      k ∈ a.keys → a.Get k = b.Get k := by
    intro a b ha hb hab hk
    obtain ⟨j, hj, hjk⟩ := List.getElem_of_mem hk
    have hj2 : j < a.vals.length := by have := ha.2; omega
    have hka : a.keys[j]? = some k := by rw [List.getElem?_eq_getElem hj, hjk]
    obtain ⟨j2, hk2, hv2⟩ := hab a.vals[j] ⟨j, hka, List.getElem?_eq_getElem hj2⟩
    rw [Map.Get_of_getElem a k ha j hka, Map.Get_of_getElem b k hb j2 hk2, hv2,
      List.getElem?_eq_getElem hj2]
  by_cases hk1 : k ∈ m1.keys
  · exact key m1 m2 h1 h2 (fun v => (h v).mp) hk1
  · by_cases hk2 : k ∈ m2.keys
    · exact (key m2 m1 h2 h1 (fun v => (h v).mpr) hk2).symm
    · rw [Map.Get_of_not_mem m1 k h1 hk1, Map.Get_of_not_mem m2 k h2 hk2]

/-- Insertion at index `i` of a pair with another key keeps the entries with key `k2`. -/
theorem entries_insert_iff {K V : Type} (ks : List K) (vs : List V) (k k2 : K) (v v2 : V) (i : Nat)
    (hi : i ≤ ks.length) (hlen : ks.length = vs.length) (hne : k2 ≠ k) :
    (∃ j : Nat, (ks.take i ++ k :: ks.drop i)[j]? = some k2
        ∧ (vs.take i ++ v :: vs.drop i)[j]? = some v2)
      ↔ (∃ j : Nat, ks[j]? = some k2 ∧ vs[j]? = some v2) := by
  have hi2 : i ≤ vs.length := by omega
  constructor
  · rintro ⟨j, hk, hv⟩
    rcases Nat.lt_trichotomy j i with h | h | h
    · rw [getElem?_insert_lt ks k i j hi h] at hk
      rw [getElem?_insert_lt vs v i j hi2 h] at hv
      exact ⟨j, hk, hv⟩
    · subst h
      rw [getElem?_insert_self ks k j hi] at hk
      exact absurd (Option.some.inj hk).symm hne
    · obtain ⟨p, rfl⟩ : ∃ p, j = p + 1 := ⟨j - 1, by omega⟩
      rw [getElem?_insert_ge ks k i p hi (by omega)] at hk
      rw [getElem?_insert_ge vs v i p hi2 (by omega)] at hv
      exact ⟨p, hk, hv⟩
  · rintro ⟨j, hk, hv⟩
    rcases Nat.lt_or_ge j i with h | h
    · exact ⟨j, by rw [getElem?_insert_lt ks k i j hi h]; exact hk,
        by rw [getElem?_insert_lt vs v i j hi2 h]; exact hv⟩
    · exact ⟨j + 1, by rw [getElem?_insert_ge ks k i j hi h]; exact hk,
        by rw [getElem?_insert_ge vs v i j hi2 h]; exact hv⟩

/-- Removal at index `i` of a pair with another key keeps the entries with key `k2`. -/
theorem entries_erase_iff {K V : Type} (ks : List K) (vs : List V) (k k2 : K) (v2 : V) (i : Nat)
    (hik : ks[i]? = some k) (hne : k2 ≠ k) :
    (∃ j : Nat, (ks.eraseIdx i)[j]? = some k2 ∧ (vs.eraseIdx i)[j]? = some v2)
      ↔ (∃ j : Nat, ks[j]? = some k2 ∧ vs[j]? = some v2) := by
  constructor
  · rintro ⟨j, hk, hv⟩
    rw [List.getElem?_eraseIdx] at hk hv
    by_cases h : j < i
    · rw [if_pos h] at hk hv
      exact ⟨j, hk, hv⟩
    · rw [if_neg h] at hk hv
      exact ⟨j + 1, hk, hv⟩
  · rintro ⟨j, hk, hv⟩
    rcases Nat.lt_trichotomy j i with h | h | h
    · refine ⟨j, ?_, ?_⟩ <;> rw [List.getElem?_eraseIdx, if_pos h] <;> assumption
    · subst h
      rw [hik] at hk
      exact absurd (Option.some.inj hk).symm hne
    · obtain ⟨p, rfl⟩ : ∃ p, j = p + 1 := ⟨j - 1, by omega⟩
      refine ⟨p, ?_, ?_⟩ <;> rw [List.getElem?_eraseIdx, if_neg (by omega)] <;> assumption

/-- Frame of `Put`: on a well-formed map `Put(k, v)` returns a well-formed map in
which `Get` of any other key answers as before. -/
theorem Map.Put_frame [Inhabited V] (m : Map K V) (k k2 : K) (v : V) (hwf : m.WellFormed)
    (hne : k2 ≠ k) :
    ∃ (m1 : Map K V) (b : Bool), m.Put k v = some (m1, b) ∧ m1.WellFormed
      ∧ m1.Get k2 = m.Get k2 := by
  obtain ⟨m1, b, hp, hw1⟩ := Map.Put_wellFormed m k v hwf
  refine ⟨m1, b, hp, hw1, Map.Get_congr m1 m k2 hw1 hwf ?_⟩
  intro v2
  by_cases hk : k ∈ m.keys
  · obtain ⟨i, hi, he⟩ := Map.Put_mem_eq m k v hwf hk
    rw [he] at hp
    cases hp
    have hji : ∀ j : Nat, m.keys[j]? = some k2 → i ≠ j := by
      intro j hj e
      subst e
      rw [hi] at hj
      exact hne (Option.some.inj hj).symm
    constructor
    · rintro ⟨j, hkj, hvj⟩
      simp only at hkj hvj
      rw [List.getElem?_set_ne (hji j hkj)] at hvj
      exact ⟨j, hkj, hvj⟩
    · rintro ⟨j, hkj, hvj⟩
      refine ⟨j, hkj, ?_⟩
      simp only
      rw [List.getElem?_set_ne (hji j hkj)]
      exact hvj
  · obtain ⟨i, hi, he, _⟩ := Map.Put_not_mem_eq m k v hwf hk
    rw [he] at hp
    cases hp
    exact entries_insert_iff m.keys m.vals k k2 v v2 i hi hwf.2 hne

/-- After `Del(k)` on a well-formed map: no panic, the result is well formed and
`k` is not a key. -/
theorem Map.Del_post (m : Map K V) (k : K) (hwf : m.WellFormed) :
    ∃ (m1 : Map K V) (b : Bool), m.Del k = some (m1, b) ∧ m1.WellFormed ∧ k ∉ m1.keys := by
  obtain ⟨m1, b, hd, hw1⟩ := Map.Del_wellFormed m k hwf
  refine ⟨m1, b, hd, hw1, ?_⟩
  by_cases hk : k ∈ m.keys
  · obtain ⟨i, hi, he⟩ := Map.Del_mem_eq m k hwf hk
    rw [he] at hd
    cases hd
    intro hmem
    obtain ⟨j, hne, hj⟩ := List.mem_eraseIdx_iff_getElem?.mp hmem
    exact hne (index_unique m.keys k ((Map.wellFormed_iff m).mp hwf).1 j i hj hi)
  · rw [Map.Del_not_found m k (Map.not_found_of_not_mem m k hwf hk)] at hd
    cases hd
    exact hk

/-- Frame of `Del`: on a well-formed map `Del(k)` returns a well-formed map in
which `Get` of any other key answers as before. -/
theorem Map.Del_frame [Inhabited V] (m : Map K V) (k k2 : K) (hwf : m.WellFormed)
    (hne : k2 ≠ k) :
    ∃ (m1 : Map K V) (b : Bool), m.Del k = some (m1, b) ∧ m1.WellFormed
      ∧ m1.Get k2 = m.Get k2 := by
  obtain ⟨m1, b, hd, hw1⟩ := Map.Del_wellFormed m k hwf
  refine ⟨m1, b, hd, hw1, ?_⟩
  by_cases hk : k ∈ m.keys
  · obtain ⟨i, hi, he⟩ := Map.Del_mem_eq m k hwf hk
    rw [he] at hd
    cases hd
    exact Map.Get_congr _ m k2 hw1 hwf
      (fun v2 => entries_erase_iff m.keys m.vals k k2 v2 i hi hne)
  · rw [Map.Del_not_found m k (Map.not_found_of_not_mem m k hwf hk)] at hd
    cases hd
    rfl

theorem lastMention_append_singleton (ops : List (MapOp K V)) (op : MapOp K V) (k : K) :
    lastMention (ops ++ [op]) k = if op.key = k then some op else lastMention ops k := by
  unfold lastMention
  rw [List.reverse_append]
  simp only [List.reverse_cons, List.reverse_nil, List.nil_append, List.singleton_append,
    List.find?_cons]
  by_cases h : op.key = k <;> simp [h]

/-- The map refines the last-write-wins dictionary: after any sequence of calls on
a new map, `Get` answers as the dictionary does. -/
theorem Map.run_refines [Inhabited V] (ops : List (MapOp K V)) :
    ∃ m : Map K V, (NewMap : Map K V).run ops = some m ∧ m.WellFormed
      ∧ ∀ k : K, m.Get k = some (lastWriteWins ops k) := by
  induction ops using List.reverseRecOn with
  | nil =>
    refine ⟨NewMap, rfl, NewMap_wellFormed, fun k => ?_⟩
    rw [Map.Get_of_not_mem NewMap k NewMap_wellFormed (by simp [NewMap])]
    rfl
  | append_singleton ops op ih =>
    obtain ⟨m, hrun, hwf, hget⟩ := ih
    have hrun2 : (NewMap : Map K V).run (ops ++ [op]) = m.step op := by
      rw [Map.run_append, hrun]
      simp only [Option.some_bind, Map.run]
      cases m.step op <;> rfl
    cases op with
    | put key value =>
      obtain ⟨m1, b, i, hp, hw1, hk1, hv1⟩ := Map.Put_post m key value hwf
      refine ⟨m1, by rw [hrun2]; simp [Map.step, hp], hw1, fun k => ?_⟩
      by_cases hkk : key = k
      · subst hkk
        rw [Map.Get_of_getElem m1 key hw1 i hk1, hv1]
        simp [lastWriteWins, lastMention_append_singleton, MapOp.key]
      · obtain ⟨m2, b2, hp2, _, hg⟩ := Map.Put_frame m key k value hwf (fun e => hkk e.symm)
        rw [hp] at hp2
        cases hp2
        rw [hg, hget k]
        simp [lastWriteWins, lastMention_append_singleton, MapOp.key, hkk]
    | del key =>
      obtain ⟨m1, b, hd, hw1, hk1⟩ := Map.Del_post m key hwf
      refine ⟨m1, by rw [hrun2]; simp [Map.step, hd], hw1, fun k => ?_⟩
      by_cases hkk : key = k
      · subst hkk
        rw [Map.Get_of_not_mem m1 key hw1 hk1]
        simp [lastWriteWins, lastMention_append_singleton, MapOp.key]
      · obtain ⟨m2, b2, hd2, _, hg⟩ := Map.Del_frame m key k hwf (fun e => hkk e.symm)
        rw [hd] at hd2
        cases hd2
        rw [hg, hget k]
        simp [lastWriteWins, lastMention_append_singleton, MapOp.key, hkk]

end DictLemmas

section DictClaims

variable {K V : Type} [LinearOrder K]

/-- C20. The map refines a last-write-wins dictionary: every sequence of `Put` and
`Del` calls on `NewMap()` runs without panic, and on the resulting map `Get(k)`
returns `(v, true)` when the last call that mentions `k` is `Put(k, v)`, and the
zero value with false when that call is `Del(k)`, when no call mentions `k`, or
when `k` was never put; and on a well-formed map `Put(key, v)` and `Del(key)`
do not change the result of `Get(k2)` for any `k2 ≠ key`. -/
theorem C20_last_write_wins [Inhabited V] (ops : List (MapOp K V)) (k : K)
    (m : Map K V) (key k2 : K) (v : V) (hwf : m.WellFormed) (hne : k2 ≠ key) :
    (∃ m1 : Map K V, (NewMap : Map K V).run ops = some m1
        ∧ m1.Get k = some (lastWriteWins ops k)
        ∧ (∀ w : V, lastMention ops k = some (.put k w) → m1.Get k = some (w, true))
        ∧ (lastMention ops k = some (.del k) → m1.Get k = some (default, false))
        ∧ (lastMention ops k = none → m1.Get k = some (default, false))
        ∧ ((∀ w : V, MapOp.put k w ∉ ops) → m1.Get k = some (default, false)))
    ∧ (∃ (m2 : Map K V) (b : Bool), m.Put key v = some (m2, b) ∧ m2.Get k2 = m.Get k2)
    ∧ (∃ (m3 : Map K V) (b : Bool), m.Del key = some (m3, b) ∧ m3.Get k2 = m.Get k2) := by
  refine ⟨?_, ?_, ?_⟩
  · obtain ⟨m1, hrun, _, hget⟩ := Map.run_refines ops
    refine ⟨m1, hrun, hget k, ?_, ?_, ?_, ?_⟩
    · intro w h
      rw [hget k]
      simp [lastWriteWins, h]
    · intro h
      rw [hget k]
      simp [lastWriteWins, h]
    · intro h
      rw [hget k]
      simp [lastWriteWins, h]
    · intro h
      rw [hget k]
      unfold lastWriteWins
      cases hl : lastMention ops k with
      | none => rfl
      | some op =>
        cases op with
        | del key1 => rfl
        | put key1 w =>
          have hmem : MapOp.put key1 w ∈ ops := by
            have := List.mem_of_find?_eq_some hl
            simpa using this
          have hkey : key1 = k := by
            have := List.find?_some hl
            simpa [MapOp.key] using this
          subst hkey
          exact absurd hmem (h w)
  · obtain ⟨m2, b, hp, _, hg⟩ := Map.Put_frame m key k2 v hwf hne
    exact ⟨m2, b, hp, hg⟩
  · obtain ⟨m3, b, hd, _, hg⟩ := Map.Del_frame m key k2 hwf hne
    exact ⟨m3, b, hd, hg⟩

/-- Witness for C20: key 1 is put, deleted and put again, key 2 is put and deleted;
and on the map with keys 1, 3 the calls on key 3 leave `Get(1)` alone. -/
theorem C20_last_write_wins_witness :
    (⟨[1, 3], [10, 30]⟩ : Map Nat Nat).WellFormed
    ∧ (1 : Nat) ≠ 3
    ∧ lastMention ([.put 1 5, .put 2 6, .del 1, .del 2, .put 1 7] : List (MapOp Nat Nat)) 1
        = some (.put 1 7)
    ∧ (∃ m1 : Map Nat Nat,
        (NewMap : Map Nat Nat).run [.put 1 5, .put 2 6, .del 1, .del 2, .put 1 7] = some m1
        ∧ m1.Get 1 = some (7, true))
    ∧ (∃ (m2 : Map Nat Nat) (b : Bool), (⟨[1, 3], [10, 30]⟩ : Map Nat Nat).Put 3 9 = some (m2, b)
        ∧ m2.Get 1 = (⟨[1, 3], [10, 30]⟩ : Map Nat Nat).Get 1)
    ∧ (∃ (m3 : Map Nat Nat) (b : Bool), (⟨[1, 3], [10, 30]⟩ : Map Nat Nat).Del 3 = some (m3, b)
        ∧ m3.Get 1 = (⟨[1, 3], [10, 30]⟩ : Map Nat Nat).Get 1) :=
  ⟨by decide, by decide, by decide,
    (fun h => ⟨h.1.choose, h.1.choose_spec.1, h.1.choose_spec.2.2.1 7 (by decide)⟩)
      (C20_last_write_wins [.put 1 5, .put 2 6, .del 1, .del 2, .put 1 7] 1
        (⟨[1, 3], [10, 30]⟩ : Map Nat Nat) 3 1 9 (by decide) (by decide)),
    (C20_last_write_wins ([] : List (MapOp Nat Nat)) 1
        (⟨[1, 3], [10, 30]⟩ : Map Nat Nat) 3 1 9 (by decide) (by decide)).2.1,
    (C20_last_write_wins ([] : List (MapOp Nat Nat)) 1
        (⟨[1, 3], [10, 30]⟩ : Map Nat Nat) 3 1 9 (by decide) (by decide)).2.2⟩

end DictClaims

end sorted
